import Mathlib

/-!
# PaddleTensor fixed-point tensor arithmetic (core/privc3/paddle_tensor_impl.h)

A shallow embedding of `aby3::PaddleTensor<T>` and proofs about it.

* Elements of the fixed-width integer type `T` are kept as raw words (bit
  patterns, naturals below `2 ^ bits`).  Arithmetic on them is modulo
  `2 ^ bits`, for signed `T` too (two's complement); signedness matters for
  division, right shift and the conversion from floating point only.
* Storage is the row-major list of words that `data()` points at.  An
  operation takes the tensors it reads and the destination it writes, and
  returns the destination afterwards; an operation that can throw returns
  `Except`, the error standing for the exception (nothing is written then,
  every check of the file sits before the first write).
* Where C++ leaves a result open (over-long shifts, conversions of values the
  target type cannot hold) the result is a parameter, see `Platform`; what an
  allocation holds before it is written is a parameter `mem` likewise.
* `double` values are `m * 2 ^ e`, the infinities and NaN; the only
  floating-point operation of the file, scaling by `2 ^ s`, is exact on them.
* The Eigen expressions (`Flatten`, `contract`, `chip`) and
  `Tensor::mutable_data` are library code, embedded by their documented meaning.
  An Eigen assignment stores the coefficients of its right side, in row-major
  order, from the start of the buffer of its left side; the shapes of the two
  sides are compared by an `eigen_assert` only, which is compiled out under
  `NDEBUG`, and the embedding is that of such a build.  `Tensor::Slice`, which
  decides what `slice` does, is modelled from the specification.
-/

namespace aby3

/-! ## The element type `T` -/

/-- Element type `T` of `PaddleTensor<T>`: a fixed-width integer type. -/
structure IntType where
  /-- Word length `sizeof(T) * 8`. -/
  bits : Nat
  /-- Whether `T` is a signed type. -/
  isSigned : Bool
  deriving DecidableEq, Repr

/-- Width of the C++ type `int`, to which narrower operands are promoted. -/
def int_bits : Nat := 32

/-- Width of `size_t`. -/
def size_bits : Nat := 64

/-- Value denoted by a raw word: two's complement when `T` is signed. -/
def toInt (T : IntType) (a : Nat) : Int :=
  if T.isSigned && decide (2 ^ (T.bits - 1) ≤ a) then (a : Int) - 2 ^ T.bits else (a : Int)

/-- Raw word of an integer value (conversion to `T`, reducing modulo `2 ^ bits`). -/
def ofInt (T : IntType) (z : Int) : Nat := (z % 2 ^ T.bits).toNat

/-- Whether an integer value is representable in `T`. -/
def inRange (T : IntType) (z : Int) : Bool :=
  if T.isSigned then decide (-(2 ^ (T.bits - 1) : Int) ≤ z) && decide (z < 2 ^ (T.bits - 1))
  else decide (0 ≤ z) && decide (z < 2 ^ T.bits)

/-! ## Floating-point values -/

/-- A value of a binary floating-point type `U`.  A finite value is
`m * 2 ^ e`; besides these there are the two infinities and NaN. -/
inductive FP where
  | finite (m : Int) (e : Int)
  | inf (neg : Bool)
  | nan
  deriving DecidableEq, Repr

/-- Whether the magnitude of `m * 2 ^ e` reaches `2 ^ 1024`, the point from
which a `double` result overflows to infinity. -/
def FP.overflows (m e : Int) : Bool :=
  if 0 ≤ e then decide (2 ^ 1024 ≤ m.natAbs * 2 ^ e.toNat)
  else decide (2 ^ 1024 * 2 ^ (-e).toNat ≤ m.natAbs)

/-- Result of `std::pow(2, scaling_factor)` in `double`: exactly `2 ^ s` while
that is finite (`s <= 1023`), positive infinity from then on. -/
def FP.pow2 (s : Nat) : FP :=
  if s ≤ 1023 then FP.finite 1 s else FP.inf false

/-- Product `a * scale` in `double`.  The finite case returns the exact
product, which is what IEEE multiplication yields when one factor is a power
of two (the only use in this file), overflowing to infinity from `2 ^ 1024`. -/
def FP.mul : FP → FP → FP
  | FP.nan, _ => FP.nan
  | _, FP.nan => FP.nan
  | FP.inf n1, FP.inf n2 => FP.inf (xor n1 n2)
  | FP.inf n, FP.finite m _ => if m = 0 then FP.nan else FP.inf (xor n (decide (m < 0)))
  | FP.finite m _, FP.inf n => if m = 0 then FP.nan else FP.inf (xor n (decide (m < 0)))
  | FP.finite m1 e1, FP.finite m2 e2 =>
      if FP.overflows (m1 * m2) (e1 + e2) then FP.inf (xor (decide (m1 < 0)) (decide (m2 < 0)))
      else FP.finite (m1 * m2) (e1 + e2)

/-- Integer part of `m * 2 ^ e`, discarding the fraction (toward zero). -/
def FP.trunc (m e : Int) : Int :=
  if 0 ≤ e then m * 2 ^ e.toNat else Int.tdiv m (2 ^ (-e).toNat)

/-! ## Behaviour the C++ standard leaves open -/

/-- What the target machine produces where C++ leaves the result of an
operation open: a shift whose count is not below the word length, and a
floating-point to integer conversion whose truncated value does not fit. -/
structure Platform where
  /-- Result of `a << n` for `n >= bits`. -/
  shlOver : Nat → Nat → Nat
  /-- Result of `a >> n` for `n >= bits`. -/
  shrOver : Nat → Nat → Nat
  /-- Result of converting to `T` a value that `T` cannot represent. -/
  castOver : FP → Nat

/-- Conversion `double -> T` of the lambdas `cast` and `trans`: truncation
toward zero when the truncated value fits in `T`. -/
def castT (T : IntType) (P : Platform) : FP → Nat
  | FP.finite m e =>
      if inRange T (FP.trunc m e) then ofInt T (FP.trunc m e)
      else P.castOver (FP.finite m e) % 2 ^ T.bits
  | x => P.castOver x % 2 ^ T.bits

/-! ## Tensors -/

/-- Failures that end an operation: one constructor per `PADDLE_ENFORCE`
message of the file, and the hardware fault of an integer division. -/
inductive Abort where
  /-- "Input dims should be equal." -/
  | inputDimsNotEqual
  /-- "The places of matrices must be same" -/
  | placesDiffer
  /-- "The input and output of matmul must be matrix or batched matrix." -/
  | notMatrix
  /-- "Only following dims are supported: ..." -/
  | dimsUnsupported
  /-- "W_A != H_B." -/
  | contractedDimMismatch
  /-- "Mat B BatchSize mismatched." -/
  | batchSizeB
  /-- "Result Mat BatchSize mismatched." -/
  | batchSizeResult
  /-- Division by zero, or a quotient that overflows the division unit. -/
  | divideFault
  /-- A slice whose bounds are invalid (`IndexOutOfRange`). -/
  | indexOutOfRange
  deriving DecidableEq, Repr

/-- The backing `paddle::framework::Tensor` holding elements of `T`. -/
structure Tensor where
  /-- Shape (`dims()`). -/
  dims : List Nat
  /-- Storage in row-major order, one raw word per element. -/
  data : List Nat
  /-- Device placement (`place()`). -/
  place : Nat
  deriving DecidableEq, Repr

/-- A `paddle::framework::Tensor` holding elements of a floating-point type. -/
structure FloatTensor where
  dims : List Nat
  data : List FP
  place : Nat
  deriving DecidableEq, Repr

/-- The class `PaddleTensor<T>`. -/
structure PaddleTensor where
  /-- Member `_tensor`. -/
  tensor : Tensor
  /-- Placement of the device context the tensor was created with (`place()`). -/
  ctx_place : Nat
  /-- Member behind `scaling_factor()`. -/
  scaling_factor : Nat
  deriving DecidableEq, Repr

/-- Element count `numel()`: the product of the dimensions. -/
def Tensor.numel (t : Tensor) : Nat := t.dims.prod

/-- Every stored word is a value of `T` and there is one per element. -/
def Tensor.WF (T : IntType) (t : Tensor) : Prop :=
  t.data.length = t.numel ∧ ∀ x ∈ t.data, x < 2 ^ T.bits

/-- Writing `vals` into the buffer `buf` from offset `off` on.  Writes that
fall behind the end of the buffer land outside the tensor and are not kept. -/
def storeAt (buf : List Nat) (off : Nat) (vals : List Nat) : List Nat :=
  (buf.take off ++ vals ++ buf.drop (off + vals.length)).take buf.length

/-- Replace the storage of the destination, everything else kept. -/
def PaddleTensor.withData (ret : PaddleTensor) (d : List Nat) : PaddleTensor :=
  { ret with tensor := { ret.tensor with data := d } }

/-- `Tensor::mutable_data<T>(dims, place)`: the tensor takes the given shape
and placement; `mem i` is the word found in cell `i` of the storage
afterwards (whatever the allocation holds). -/
def mutable_data (T : IntType) (mem : Nat → Nat) (dims : List Nat) (place : Nat) : Tensor :=
  { dims := dims, data := (List.range dims.prod).map (fun i => mem i % 2 ^ T.bits), place := place }

/-- `PaddleTensor<T>::reshape`. -/
def reshape (T : IntType) (mem : Nat → Nat) (self : PaddleTensor) (shape : List Nat) : PaddleTensor :=
  { self with tensor := mutable_data T mem shape self.ctx_place }

/-! ## Elementwise arithmetic and bitwise family -/

/-- `a + b` in `T`. -/
def addT (T : IntType) (a b : Nat) : Nat := (a + b) % 2 ^ T.bits

/-- `a - b` in `T`. -/
def subT (T : IntType) (a b : Nat) : Nat := (a + (2 ^ T.bits - b % 2 ^ T.bits)) % 2 ^ T.bits

/-- `a * b` in `T`. -/
def mulT (T : IntType) (a b : Nat) : Nat := (a * b) % 2 ^ T.bits

/-- `-a` in `T`. -/
def negT (T : IntType) (a : Nat) : Nat := (2 ^ T.bits - a % 2 ^ T.bits) % 2 ^ T.bits

/-- `~a` in `T`. -/
def notT (T : IntType) (a : Nat) : Nat := 2 ^ T.bits - 1 - a % 2 ^ T.bits

/-- Whether `a / b` faults: a zero divisor, or the least value of a signed
type at least as wide as `int` divided by `-1`. -/
def divFaults (T : IntType) (a b : Nat) : Bool :=
  decide (b = 0) ||
    (T.isSigned && decide (int_bits ≤ T.bits) && decide (a = 2 ^ (T.bits - 1)) &&
      decide (b = 2 ^ T.bits - 1))

/-- `a / b` in `T`: the quotient of the denoted values, truncated toward zero. -/
def divT (T : IntType) (a b : Nat) : Nat := ofInt T (Int.tdiv (toInt T a) (toInt T b))

/-- The elements `data() .. data() + numel()` of a tensor. -/
def Tensor.elems (t : Tensor) : List Nat := t.data.take t.numel

/-- `PaddleTensor<T>::add`. -/
def add (T : IntType) (self rhs ret : PaddleTensor) : Except Abort PaddleTensor :=
  if self.tensor.dims ≠ rhs.tensor.dims then Except.error Abort.inputDimsNotEqual
  else Except.ok (ret.withData
    (storeAt ret.tensor.data 0 (List.zipWith (addT T) self.tensor.elems rhs.tensor.elems)))

/-- `PaddleTensor<T>::sub`. -/
def sub (T : IntType) (self rhs ret : PaddleTensor) : Except Abort PaddleTensor :=
  if self.tensor.dims ≠ rhs.tensor.dims then Except.error Abort.inputDimsNotEqual
  else Except.ok (ret.withData
    (storeAt ret.tensor.data 0 (List.zipWith (subT T) self.tensor.elems rhs.tensor.elems)))

/-- `PaddleTensor<T>::mul`. -/
def mul (T : IntType) (self rhs ret : PaddleTensor) : Except Abort PaddleTensor :=
  if self.tensor.dims ≠ rhs.tensor.dims then Except.error Abort.inputDimsNotEqual
  else Except.ok (ret.withData
    (storeAt ret.tensor.data 0 (List.zipWith (mulT T) self.tensor.elems rhs.tensor.elems)))

/-- `PaddleTensor<T>::div`. -/
def div (T : IntType) (self rhs ret : PaddleTensor) : Except Abort PaddleTensor :=
  if self.tensor.dims ≠ rhs.tensor.dims then Except.error Abort.inputDimsNotEqual
  else if (List.zipWith (divFaults T) self.tensor.elems rhs.tensor.data).any id then
    Except.error Abort.divideFault
  else Except.ok (ret.withData
    (storeAt ret.tensor.data 0 (List.zipWith (divT T) self.tensor.elems rhs.tensor.data)))

/-- `PaddleTensor<T>::negative`. -/
def negative (T : IntType) (self ret : PaddleTensor) : PaddleTensor :=
  ret.withData (storeAt ret.tensor.data 0 (self.tensor.elems.map (negT T)))

/-- `PaddleTensor<T>::bitwise_and`. -/
def bitwise_and (self rhs ret : PaddleTensor) : Except Abort PaddleTensor :=
  if self.tensor.dims ≠ rhs.tensor.dims then Except.error Abort.inputDimsNotEqual
  else Except.ok (ret.withData
    (storeAt ret.tensor.data 0 (List.zipWith (fun a b => a &&& b) self.tensor.elems rhs.tensor.data)))

/-- `PaddleTensor<T>::bitwise_or`. -/
def bitwise_or (self rhs ret : PaddleTensor) : Except Abort PaddleTensor :=
  if self.tensor.dims ≠ rhs.tensor.dims then Except.error Abort.inputDimsNotEqual
  else Except.ok (ret.withData
    (storeAt ret.tensor.data 0 (List.zipWith (fun a b => a ||| b) self.tensor.elems rhs.tensor.data)))

/-- `PaddleTensor<T>::bitwise_not`. -/
def bitwise_not (T : IntType) (self ret : PaddleTensor) : PaddleTensor :=
  ret.withData (storeAt ret.tensor.data 0 (self.tensor.elems.map (notT T)))

/-- `PaddleTensor<T>::bitwise_xor`. -/
def bitwise_xor (self rhs ret : PaddleTensor) : Except Abort PaddleTensor :=
  if self.tensor.dims ≠ rhs.tensor.dims then Except.error Abort.inputDimsNotEqual
  else Except.ok (ret.withData
    (storeAt ret.tensor.data 0 (List.zipWith (fun a b => a ^^^ b) self.tensor.elems rhs.tensor.data)))

/-! ## Shift family -/

/-- `a << n` in `T`. -/
def shlT (T : IntType) (P : Platform) (a n : Nat) : Nat :=
  if n < T.bits then (a * 2 ^ n) % 2 ^ T.bits else P.shlOver a n % 2 ^ T.bits

/-- `a >> n` in `T`: the denoted value divided by `2 ^ n` rounding down, which
replicates the sign bit when `T` is signed. -/
def shrT (T : IntType) (P : Platform) (a n : Nat) : Nat :=
  if n < T.bits then ofInt T (toInt T a / 2 ^ n) else P.shrOver a n % 2 ^ T.bits

/-- `a - b` on `size_t`. -/
def sizeSub (a b : Nat) : Nat := (a + (2 ^ size_bits - b % 2 ^ size_bits)) % 2 ^ size_bits

/-- `PaddleTensor<T>::lshift`. -/
def lshift (T : IntType) (P : Platform) (rhs : Nat) (self ret : PaddleTensor) : PaddleTensor :=
  ret.withData (storeAt ret.tensor.data 0 (self.tensor.elems.map (fun a => shlT T P a rhs)))

/-- `PaddleTensor<T>::rshift`. -/
def rshift (T : IntType) (P : Platform) (rhs : Nat) (self ret : PaddleTensor) : PaddleTensor :=
  ret.withData (storeAt ret.tensor.data 0 (self.tensor.elems.map (fun a => shrT T P a rhs)))

/-- The lambda `logical_rshift_functor`. -/
def logical_rshift_functor (T : IntType) (P : Platform) (rhs : Nat) (a : Nat) : Nat :=
  let word_len := T.bits
  let mask := shlT T P 1 (sizeSub (sizeSub word_len rhs) 1)
  let mask := mask ||| subT T mask 1
  let mask := if rhs ≥ word_len then 0 else mask
  shrT T P a rhs &&& mask

/-- `PaddleTensor<T>::logical_rshift`. -/
def logical_rshift (T : IntType) (P : Platform) (rhs : Nat) (self ret : PaddleTensor) :
    PaddleTensor :=
  ret.withData (storeAt ret.tensor.data 0 (self.tensor.elems.map (logical_rshift_functor T P rhs)))

/-! ## Fixed-point conversion -/

/-- `PaddleTensor<T>::from_float_point_type`. -/
def from_float_point_type (T : IntType) (P : Platform) (mem : Nat → Nat) (self : PaddleTensor)
    (tensor : FloatTensor) (scaling_factor : Nat) : PaddleTensor :=
  let scale := FP.pow2 scaling_factor
  let cast := fun a => castT T P (FP.mul a scale)
  let t := mutable_data T mem tensor.dims self.ctx_place
  { tensor := { t with data := storeAt t.data 0 ((tensor.data.take tensor.dims.prod).map cast) },
    ctx_place := self.ctx_place,
    scaling_factor := scaling_factor }

/-- `PaddleTensor<T>::from_float_point_scalar`. -/
def from_float_point_scalar (T : IntType) (P : Platform) (mem : Nat → Nat) (self : PaddleTensor)
    (scalar : FP) (shape : List Nat) (scaling_factor : Nat) : PaddleTensor :=
  let scale := FP.pow2 scaling_factor
  let trans := fun (_ : Nat) => castT T P (FP.mul scalar scale)
  let r := reshape T mem self shape
  { tensor := { r.tensor with data := storeAt r.tensor.data 0 (r.tensor.elems.map trans) },
    ctx_place := r.ctx_place,
    scaling_factor := scaling_factor }

/-! ## Batched matrix multiplication -/

/-- Row-major offset of the element at multi-index `idx` in a view of shape `dims`. -/
def ravel : List Nat → List Nat → Nat
  | _ :: ds, i :: is => i * ds.prod + ravel ds is
  | _, _ => 0

/-- Multi-index of the element at row-major offset `lin` in a view of shape `dims`. -/
def unravel : List Nat → Nat → List Nat
  | [], _ => []
  | _ :: ds, lin => (lin / ds.prod) :: unravel ds (lin % ds.prod)

/-- Multi-index `l` with the entry `t` put in at position `p`. -/
def insertAt (l : List Nat) (p t : Nat) : List Nat := l.take p ++ t :: l.drop p

/-- Coefficient of an Eigen tensor map of shape `dims` over the buffer `data`. -/
def coeff (dims data idx : List Nat) : Nat := data.getD (ravel dims idx) 0

/-- `Eigen::Tensor::contract` over one index pair `(p, q)`: the result has the
free dimensions of the left operand followed by those of the right one, and
its coefficient at `(I, J)` is the sum over `t` of `a[I with t at p] *
b[J with t at q]`, in `T`.  Returned as the row-major list of coefficients. -/
def contract (T : IntType) (da a db b : List Nat) (p q : Nat) : List Nat :=
  let fa := da.eraseIdx p
  let fb := db.eraseIdx q
  (List.range (fa ++ fb).prod).map fun lin =>
    let idx := unravel (fa ++ fb) lin
    (((List.range (da.getD p 0)).map fun t =>
        coeff da a (insertAt (idx.take fa.length) p t) *
          coeff db b (insertAt (idx.drop fa.length) q t)).sum) % 2 ^ T.bits

/-- `chip(i, 0)` of a row-major view: the `i`-th sub-tensor along the first axis. -/
def chip0 (dims data : List Nat) (i : Nat) : List Nat :=
  (data.drop (i * dims.tail.prod)).take dims.tail.prod

/-- The lambda `is_matrix`. -/
def is_matrix (t : Tensor) : Bool := t.dims.length == 2 || t.dims.length == 3

/-- Shape of the rank-3 view built by the lambda `to_const_eigen_tensor`. -/
def to_const_eigen_tensor (t : Tensor) : List Nat :=
  if t.dims.length = 2 then [1, t.dims.getD 0 0, t.dims.getD 1 0] else t.dims

/-- Shape of the rank-4 view built by the lambda `to_eigen_tensor`. -/
def to_eigen_tensor (t : Tensor) : List Nat :=
  if t.dims.length = 2 then [1, t.dims.getD 0 0, 1, t.dims.getD 1 0]
  else [t.dims.getD 0 0, t.dims.getD 1 0, 1, t.dims.getD 2 0]

/-- `PaddleTensor<T>::mat_mul` (the build without `USE_CUDA`). -/
def mat_mul (T : IntType) (self rhs ret : PaddleTensor) (trans_lhs trans_rhs : Bool) :
    Except Abort PaddleTensor :=
  let mat_a := self.tensor
  let mat_b := rhs.tensor
  let mat_out := ret.tensor
  if ¬ (mat_a.place = mat_b.place ∧ mat_a.place = mat_out.place) then
    Except.error Abort.placesDiffer
  else if ¬ (is_matrix mat_a && is_matrix mat_b && is_matrix mat_out) then
    Except.error Abort.notMatrix
  else if ¬ (mat_a.dims.length ≥ mat_b.dims.length) then
    Except.error Abort.dimsUnsupported
  else
    let t_a := to_const_eigen_tensor mat_a
    let t_b := to_const_eigen_tensor mat_b
    let t_c := to_eigen_tensor mat_out
    if t_a.getD (2 - trans_lhs.toNat) 0 ≠ t_b.getD (1 + trans_rhs.toNat) 0 then
      Except.error Abort.contractedDimMismatch
    else
      let batch_size := t_a.getD 0 0
      let batch_size_b := t_b.getD 0 0
      if ¬ (batch_size_b = batch_size ∨ batch_size_b = 1) then
        Except.error Abort.batchSizeB
      else if t_c.getD 0 0 ≠ batch_size then
        Except.error Abort.batchSizeResult
      else
        let hc := t_c.getD 1 0
        let wc := t_c.getD 3 0
        if batch_size_b = 1 then
          Except.ok (ret.withData (storeAt mat_out.data 0
            (contract T t_a mat_a.data t_b mat_b.data (2 - trans_lhs.toNat) (1 + trans_rhs.toNat))))
        else
          Except.ok (ret.withData ((List.range batch_size).foldl
            (fun buf i => storeAt buf (i * hc * wc)
              (contract T t_a.tail (chip0 t_a mat_a.data i) t_b.tail (chip0 t_b mat_b.data i)
                (1 - trans_lhs.toNat) (0 + trans_rhs.toNat)))
            mat_out.data))

/-! ## Shape and view operations -/

/-- Modelled from the spec: `paddle::framework::Tensor::Slice(begin, end)`, the
framework routine behind `slice`, which is not part of this file.  It yields the
first-axis range `[begin, end)` of the tensor, the remaining dimensions kept, and
fails with `IndexOutOfRange` when `begin > end` or when the range leaves the
first axis.  (The spec leaves `begin = end` open; it is taken as the empty
range.) -/
def Tensor.Slice (t : Tensor) (begin_idx end_idx : Nat) : Except Abort Tensor :=
  if begin_idx > end_idx ∨ end_idx > t.dims.getD 0 0 then Except.error Abort.indexOutOfRange
  else Except.ok
    { dims := (end_idx - begin_idx) :: t.dims.tail,
      data := (t.data.drop (begin_idx * t.dims.tail.prod)).take
        ((end_idx - begin_idx) * t.dims.tail.prod),
      place := t.place }

/-- `PaddleTensor<T>::slice`. -/
def slice (self : PaddleTensor) (begin_idx end_idx : Nat) (ret : PaddleTensor) :
    Except Abort PaddleTensor :=
  match self.tensor.Slice begin_idx end_idx with
  | Except.error e => Except.error e
  | Except.ok t => Except.ok { ret with tensor := t, scaling_factor := self.scaling_factor }

/-! ## Vocabulary of the specification -/

/-- Rank 2 or 3 ("matrix-like"). -/
def rankOk (t : Tensor) : Prop := t.dims.length = 2 ∨ t.dims.length = 3

/-- Batch size of a matrix-like tensor: 1 for rank 2, the leading dimension otherwise. -/
def batchOf (t : Tensor) : Nat := if t.dims.length = 2 then 1 else t.dims.getD 0 0

/-- Row count of the 2-D slices of a matrix-like tensor. -/
def rowsOf (t : Tensor) : Nat := if t.dims.length = 2 then t.dims.getD 0 0 else t.dims.getD 1 0

/-- Column count of the 2-D slices of a matrix-like tensor. -/
def colsOf (t : Tensor) : Nat := if t.dims.length = 2 then t.dims.getD 1 0 else t.dims.getD 2 0

/-- Size of the contracted dimension of the left operand under its transpose flag. -/
def contractedLhs (t : Tensor) (trans_lhs : Bool) : Nat :=
  if trans_lhs then rowsOf t else colsOf t

/-- Size of the contracted dimension of the right operand under its transpose flag. -/
def contractedRhs (t : Tensor) (trans_rhs : Bool) : Nat :=
  if trans_rhs then colsOf t else rowsOf t

/-! ## Concrete types, machines and tensors used in the examples -/

/-- The element type `int64_t`. -/
def int64 : IntType := { bits := 64, isSigned := true }

/-- The element type `uint8_t`. -/
def uint8 : IntType := { bits := 8, isSigned := false }

/-- An x86-64 machine running `int64_t` code: shift counts are taken modulo 64
and `cvttsd2si` answers `0x8000000000000000` for a value it cannot convert. -/
def x86_64 : Platform :=
  { shlOver := fun a n => a * 2 ^ (n % 64),
    shrOver := fun a n => ofInt int64 (toInt int64 a / 2 ^ (n % 64)),
    castOver := fun _ => 2 ^ 63 }

/-- A tensor with the given shape and storage, on placement 0 with scaling factor 0. -/
def mkTensor (dims data : List Nat) : PaddleTensor :=
  { tensor := { dims := dims, data := data, place := 0 }, ctx_place := 0, scaling_factor := 0 }


/-- The standard product of an `m x k` by a `k x n` matrix, both row-major, in `T`. -/
def matrixProduct (T : IntType) (k n : Nat) (m : Nat) (x y : List Nat) : List Nat :=
  (List.range (m * n)).map fun lin =>
    (((List.range k).map fun t => x.getD (lin / n * k + t) 0 * y.getD (t * n + lin % n) 0).sum)
      % 2 ^ T.bits

/-- Storage of a batch of `B` row-major `r x c` matrices after each has been
transposed into a `c x r` matrix. -/
def transposeData (B r c : Nat) (a : List Nat) : List Nat :=
  (List.range (B * (c * r))).map fun lin =>
    a.getD (lin / (c * r) * (r * c) + (lin % r * c + lin % (c * r) / r)) 0

/-- A matrix-like tensor with the last two axes of every 2-D slice swapped in
storage; any other tensor is left alone. -/
def Tensor.transposed (t : Tensor) : Tensor :=
  if t.dims.length = 2 then
    { t with dims := [colsOf t, rowsOf t],
             data := transposeData 1 (rowsOf t) (colsOf t) t.data }
  else if t.dims.length = 3 then
    { t with dims := [batchOf t, colsOf t, rowsOf t],
             data := transposeData (batchOf t) (rowsOf t) (colsOf t) t.data }
  else t

/-- The operand handed to `mat_mul` in place of `p` when its flag asks for a transposition. -/
def PaddleTensor.transposeIf (flag : Bool) (p : PaddleTensor) : PaddleTensor :=
  if flag then { p with tensor := p.tensor.transposed } else p

/-- Entry `(i, j)` of a row-major matrix with `cols` columns. -/
def entry (data : List Nat) (cols i j : Nat) : Nat := data.getD (i * cols + j) 0

/-- The `i`-th 2-D slice of a matrix-like tensor, as a rank-2 tensor of its own. -/
def slice2D (t : PaddleTensor) (i : Nat) : PaddleTensor :=
  { t with tensor :=
      { dims := [rowsOf t.tensor, colsOf t.tensor],
        data := chip0 [batchOf t.tensor, rowsOf t.tensor, colsOf t.tensor] t.tensor.data i,
        place := t.tensor.place } }

/-- The `2 x 3` matrix `[[1, 2, 3], [4, 5, 6]]`. -/
def exA : PaddleTensor := mkTensor [2, 3] [1, 2, 3, 4, 5, 6]

/-- A `3 x 4` matrix. -/
def exB : PaddleTensor := mkTensor [3, 4] [1, 0, 2, 1, 0, 1, 0, 1, 3, 0, 1, 1]

/-- A `2 x 4` destination holding sevens. -/
def exDst : PaddleTensor := mkTensor [2, 4] (List.replicate 8 7)

/-- A batch of five `2 x 3` matrices holding `0 .. 29`. -/
def exBatchA : PaddleTensor := mkTensor [5, 2, 3] (List.range 30)

/-- A `5 x 2 x 4` destination holding sevens. -/
def exBatchDst : PaddleTensor := mkTensor [5, 2, 4] (List.replicate 40 7)

/-- Two `int64_t` words: `-8` and `17`. -/
def exWords : PaddleTensor := mkTensor [2] [2 ^ 64 - 8, 17]

/-- A destination for two words. -/
def exWordsDst : PaddleTensor := mkTensor [2] [5, 5]

/-- Two `uint8_t` words. -/
def exBytesA : PaddleTensor := mkTensor [2] [200, 7]

/-- Two more `uint8_t` words; both sums with `exBytesA` wrap around. -/
def exBytesB : PaddleTensor := mkTensor [2] [100, 255]

/-- A tensor of three words. -/
def exThree : PaddleTensor := mkTensor [3] [1, 2, 3]

/-- The `double` tensor holding `1.5` and `-1.75`. -/
def exFloats : FloatTensor := { dims := [2], data := [FP.finite 3 (-1), FP.finite (-7) (-2)], place := 0 }

/-- The `double` tensor holding the values `2 ^ -1000` and `2 ^ -999`. -/
def exTiny : FloatTensor :=
  { dims := [2], data := [FP.finite 1 (-1000), FP.finite 1 (-999)], place := 0 }

/-- A tensor of first-axis length 5 with rows of two words, scaling factor 16. -/
def exRows : PaddleTensor :=
  { tensor := { dims := [5, 2], data := [10, 11, 20, 21, 30, 31, 40, 41, 50, 51], place := 0 },
    ctx_place := 0, scaling_factor := 16 }

/-- What an operation leaves alone in its destination: shape, placement,
device context, scaling factor and the number of stored words. -/
def SameFrame (ret r : PaddleTensor) : Prop :=
  r.tensor.dims = ret.tensor.dims ∧ r.tensor.place = ret.tensor.place ∧
    r.ctx_place = ret.ctx_place ∧ r.scaling_factor = ret.scaling_factor ∧
    r.tensor.data.length = ret.tensor.data.length

/-- The raw encoding of `6.0` at scaling factor 16. -/
def exSix : PaddleTensor :=
  { tensor := { dims := [1], data := [393216], place := 0 }, ctx_place := 0, scaling_factor := 16 }

/-- The raw encoding of `2.0` at scaling factor 16. -/
def exTwo : PaddleTensor :=
  { tensor := { dims := [1], data := [131072], place := 0 }, ctx_place := 0, scaling_factor := 16 }

/-- A destination for one word, with scaling factor 16. -/
def exOne : PaddleTensor :=
  { tensor := { dims := [1], data := [0], place := 0 }, ctx_place := 0, scaling_factor := 16 }

/-- A matrix-like tensor viewed as rank 3 `[batch, rows, cols]`, a rank-2 tensor as batch 1. -/
def view3 (t : Tensor) : List Nat := [batchOf t, rowsOf t, colsOf t]

/-- The `4 x 3` matrix whose transpose is `exB`. -/
def exBt : PaddleTensor := mkTensor [4, 3] [1, 0, 3, 0, 1, 0, 2, 0, 1, 1, 1, 1]

/-- Row count of the slices of the product: the rows of the left operand, its
columns if `trans_lhs` is set. -/
def productRows (a : Tensor) (trans_lhs : Bool) : Nat :=
  if trans_lhs then colsOf a else rowsOf a

/-- Column count of the slices of the product: the columns of the right operand,
its rows if `trans_rhs` is set. -/
def productCols (b : Tensor) (trans_rhs : Bool) : Nat :=
  if trans_rhs then rowsOf b else colsOf b

/-- Entry `(x, y)` of the matrix product of batch slice `i` of the left operand
with batch slice `j` of the right one, each read transposed if its flag is set:
the sum over `t` of lhs `(x, t)` times rhs `(t, y)`, in `T`. -/
def productEntry (T : IntType) (a b : Tensor) (trans_lhs trans_rhs : Bool) (i j x y : Nat) : Nat :=
  (((List.range (contractedLhs a trans_lhs)).map fun t =>
    coeff (view3 a) a.data (if trans_lhs then [i, t, x] else [i, x, t]) *
      coeff (view3 b) b.data (if trans_rhs then [j, y, t] else [j, t, y])).sum) % 2 ^ T.bits

/-- The entries of that product, row by row. -/
def productSlice (T : IntType) (a b : Tensor) (trans_lhs trans_rhs : Bool) (i j : Nat) : List Nat :=
  (List.range (productRows a trans_lhs * productCols b trans_rhs)).map fun lin =>
    productEntry T a b trans_lhs trans_rhs i j
      (lin / productCols b trans_rhs) (lin % productCols b trans_rhs)

/-- Every word that `mat_mul` stores lies inside the buffer of the destination:
with one shared right matrix the slices of the product are stored one after the
other from the start of the buffer, otherwise slice `i` is stored from offset
`i * hc * wc` on, `hc` and `wc` being the row and column counts of the
destination. -/
def StoresInBounds (a b dst : Tensor) (trans_lhs trans_rhs : Bool) : Prop :=
  if batchOf b = 1 then
    batchOf a * (productRows a trans_lhs * productCols b trans_rhs) ≤ dst.data.length
  else
    ∀ i, i < batchOf a →
      i * rowsOf dst * colsOf dst + productRows a trans_lhs * productCols b trans_rhs ≤
        dst.data.length

/-- A destination of 3 rows and 3 columns. -/
def exNine : PaddleTensor := mkTensor [3, 3] (List.replicate 9 7)

/-- A rank-4 destination of batch size 1 holding 8 words. -/
def exRank4 : PaddleTensor := mkTensor [1, 1, 2, 4] (List.replicate 8 7)

/-- A batch of two `1 x 2` matrices. -/
def exPairA : PaddleTensor := mkTensor [2, 1, 2] [1, 2, 3, 4]

/-- A batch of two `2 x 1` matrices. -/
def exPairB : PaddleTensor := mkTensor [2, 2, 1] [5, 6, 7, 8]

/-- A destination for a batch of two `2 x 2` matrices. -/
def exPairDst : PaddleTensor := mkTensor [2, 2, 2] (List.replicate 8 9)

/-! ## Auxiliary lemmas -/

/-- A store never changes the size of the buffer. -/
theorem storeAt_length (buf : List Nat) (off : Nat) (vals : List Nat) :
    (storeAt buf off vals).length = buf.length := by
  unfold storeAt
  simp only [List.length_take, List.length_append, List.length_drop]
  omega

/-- Cell `i` of a buffer after a store: the stored value inside the written range, the old one elsewhere. -/
theorem storeAt_getElem? (buf : List Nat) (off : Nat) (vals : List Nat) (i : Nat) :
    (storeAt buf off vals)[i]? =
      if i < buf.length then (if off ≤ i ∧ i < off + vals.length then vals[i - off]? else buf[i]?)
      else none := by
  unfold storeAt
  rw [List.getElem?_take]
  by_cases hi : i < buf.length
  · simp only [hi, if_true]
    by_cases h1 : i < off
    · have : ¬ (off ≤ i ∧ i < off + vals.length) := by omega
      simp only [this, if_false]
      rw [List.append_assoc, List.getElem?_append_left (by simp; omega)]
      rw [List.getElem?_take]; simp [h1]
    · by_cases h2 : i < off + vals.length
      · have : (off ≤ i ∧ i < off + vals.length) := by omega
        simp only [this, and_self, if_true]
        rw [List.append_assoc, List.getElem?_append_right (by simp; omega)]
        rw [List.getElem?_append_left (by simp; omega)]
        congr 1; simp; omega
      · have : ¬ (off ≤ i ∧ i < off + vals.length) := by omega
        simp only [this, if_false]
        rw [List.getElem?_append_right (by simp; omega)]
        rw [List.getElem?_drop]
        congr 1; simp; omega
  · simp [hi]

/-- Storing as many values as the buffer holds, from offset 0, replaces the whole buffer. -/
theorem storeAt_zero_full (buf vals : List Nat) (h : vals.length = buf.length) :
    storeAt buf 0 vals = vals := by
  apply List.ext_getElem?
  intro i
  rw [storeAt_getElem?]
  by_cases hi : i < buf.length
  · simp [hi, h]
  · simp only [hi, if_false]
    symm; rw [List.getElem?_eq_none_iff]; omega

/-- Cell `i` after `std::transform` has written the images of `xs` from offset 0. -/
theorem storeAt_zero_map (buf xs : List Nat) (f : Nat → Nat) (i : Nat) (hi : i < buf.length) :
    (storeAt buf 0 (xs.map f))[i]? = if i < xs.length then (xs[i]?).map f else buf[i]? := by
  rw [storeAt_getElem?, if_pos hi]
  by_cases h : i < xs.length
  · simp [h]
  · simp [h]

/-- With one stored word per element, `data() .. data() + numel()` is the whole storage. -/
theorem elems_of_length (t : Tensor) (h : t.data.length = t.numel) : t.elems = t.data := by
  unfold Tensor.elems; rw [← h]; exact List.take_length _

/-- Subtraction in `T` undoes addition in `T`. -/
theorem subT_addT (T : IntType) (a b : Nat) : subT T (addT T a b) b = a % 2 ^ T.bits := by
  unfold subT addT
  have hpos : 0 < 2 ^ T.bits := Nat.two_pow_pos _
  revert hpos
  generalize 2 ^ T.bits = M
  intro hpos
  rw [Nat.mod_add_mod]
  have hb : b % M < M := Nat.mod_lt _ hpos
  have e : a + b + (M - b % M) = a + M * (b / M + 1) := by
    have := Nat.div_add_mod b M
    have h2 : M * (b / M + 1) = M * (b / M) + M := by ring
    omega
  rw [e, Nat.add_mul_mod_self_left]

/-- Elementwise, subtracting `ys` from the sums `xs + ys` gives `xs` back. -/
theorem zipWith_sub_add (T : IntType) (xs ys : List Nat) (h : xs.length = ys.length)
    (hx : ∀ x ∈ xs, x < 2 ^ T.bits) :
    List.zipWith (subT T) (List.zipWith (addT T) xs ys) ys = xs := by
  induction xs generalizing ys with
  | nil => simp
  | cons x xs ih =>
    cases ys with
    | nil => simp at h
    | cons y ys =>
      simp only [List.zipWith_cons_cons, List.cons.injEq]
      refine ⟨?_, ih ys (by simpa using h) (fun z hz => hx z (List.mem_cons_of_mem _ hz))⟩
      rw [subT_addT]
      exact Nat.mod_eq_of_lt (hx x (List.mem_cons_self _ _))

/-- The step `mask |= mask - 1` on a single set bit fills all lower bits. -/
theorem two_pow_lor_pred (k : Nat) : 2 ^ k ||| (2 ^ k - 1) = 2 ^ (k + 1) - 1 := by
  apply Nat.eq_of_testBit_eq
  intro i
  rw [Nat.testBit_lor, Nat.testBit_two_pow, Nat.testBit_two_pow_sub_one,
    Nat.testBit_two_pow_sub_one]
  by_cases h1 : k = i
  · subst h1; simp
  · by_cases h2 : i < k
    · have : i < k + 1 := by omega
      simp [h1, h2, this]
    · have : ¬ i < k + 1 := by omega
      simp [h1, h2, this]

/-- For a shift amount below the word length the mask is `bits - n` low-order one-bits. -/
theorem logical_rshift_mask (T : IntType) (P : Platform) (n : Nat)
    (hT : T.bits < 2 ^ size_bits) (hn : n < T.bits) :
    (shlT T P 1 (sizeSub (sizeSub T.bits n) 1) |||
      subT T (shlT T P 1 (sizeSub (sizeSub T.bits n) 1)) 1) = 2 ^ (T.bits - n) - 1 := by
  have hcount : sizeSub (sizeSub T.bits n) 1 = T.bits - n - 1 := by
    have h64 : (2 : Nat) ^ size_bits = 18446744073709551616 := by
      unfold size_bits; norm_num
    unfold sizeSub
    rw [h64] at hT ⊢
    omega
  rw [hcount]
  have hk : T.bits - n - 1 < T.bits := by omega
  have hlt : 2 ^ (T.bits - n - 1) < 2 ^ T.bits := Nat.pow_lt_pow_right (by norm_num) hk
  have hshl : shlT T P 1 (T.bits - n - 1) = 2 ^ (T.bits - n - 1) := by
    unfold shlT
    rw [if_pos hk, Nat.one_mul, Nat.mod_eq_of_lt hlt]
  rw [hshl]
  have h1 : 1 < 2 ^ T.bits := Nat.one_lt_two_pow (by omega)
  have hpos : 0 < 2 ^ (T.bits - n - 1) := Nat.two_pow_pos _
  have hsub : subT T (2 ^ (T.bits - n - 1)) 1 = 2 ^ (T.bits - n - 1) - 1 := by
    unfold subT
    rw [Nat.mod_eq_of_lt h1]
    have e : 2 ^ (T.bits - n - 1) + (2 ^ T.bits - 1) = (2 ^ (T.bits - n - 1) - 1) + 2 ^ T.bits := by
      omega
    rw [e, Nat.add_mod_right, Nat.mod_eq_of_lt (by omega)]
  have hk1 : T.bits - n - 1 + 1 = T.bits - n := by omega
  rw [hsub, two_pow_lor_pred, hk1]

/-- The low `bits - n` bits of `a >> n` are those of the unsigned quotient, for either signedness. -/
theorem shrT_mod (T : IntType) (P : Platform) (x n : Nat) (hn : n < T.bits)
    (hx : x < 2 ^ T.bits) : shrT T P x n % 2 ^ (T.bits - n) = x / 2 ^ n := by
  have hsplit : 2 ^ T.bits = 2 ^ (T.bits - n) * 2 ^ n := by
    rw [← Nat.pow_add]; congr 1; omega
  have hq : x / 2 ^ n < 2 ^ (T.bits - n) := by
    apply Nat.div_lt_of_lt_mul
    rw [Nat.mul_comm, ← hsplit]; exact hx
  have hz : (toInt T x / 2 ^ n) % (2 ^ (T.bits - n) : Int) = ((x / 2 ^ n : Nat) : Int) := by
    have hne : (2 ^ n : Int) ≠ 0 := by positivity
    unfold toInt
    split
    · have e : ((x : Int) - 2 ^ T.bits) = (x : Int) + (-(2 ^ (T.bits - n) : Int)) * 2 ^ n := by
        have : ((2 ^ T.bits : Nat) : Int) = ((2 ^ (T.bits - n) * 2 ^ n : Nat) : Int) := by
          rw [hsplit]
        push_cast at this
        rw [this]; ring
      rw [e, Int.add_mul_ediv_right _ _ hne]
      have e2 : ((x : Int) / 2 ^ n + -(2 ^ (T.bits - n) : Int))
          = ((x / 2 ^ n : Nat) : Int) + (2 ^ (T.bits - n) : Int) * (-1) := by
        push_cast; ring
      rw [e2, Int.add_mul_emod_self_left]
      apply Int.emod_eq_of_lt
      · positivity
      · exact_mod_cast hq
    · have e2 : ((x : Int) / 2 ^ n) = ((x / 2 ^ n : Nat) : Int) := by push_cast; rfl
      rw [e2]
      apply Int.emod_eq_of_lt
      · positivity
      · exact_mod_cast hq
  unfold shrT
  rw [if_pos hn]
  unfold ofInt
  apply Int.ofNat_inj.mp
  rw [Int.natCast_mod, Int.toNat_of_nonneg (Int.emod_nonneg _ (by positivity))]
  push_cast
  rw [Int.emod_emod_of_dvd _ (pow_dvd_pow 2 (Nat.sub_le _ _)), hz]
  push_cast
  rfl

/-- Below the word length the functor is the unsigned right shift of the raw word. -/
theorem logical_rshift_functor_eq (T : IntType) (P : Platform) (n x : Nat)
    (hT : T.bits < 2 ^ size_bits) (hn : n < T.bits) (hx : x < 2 ^ T.bits) :
    logical_rshift_functor T P n x = x / 2 ^ n := by
  unfold logical_rshift_functor
  simp only []
  rw [logical_rshift_mask T P n hT hn, if_neg (by omega), Nat.and_pow_two_sub_one_eq_mod,
    shrT_mod T P x n hn hx]

/-- From the word length on the mask is zero, and so is the result. -/
theorem logical_rshift_functor_over (T : IntType) (P : Platform) (n x : Nat)
    (hn : T.bits ≤ n) : logical_rshift_functor T P n x = 0 := by
  unfold logical_rshift_functor
  simp only []
  rw [if_pos hn, Nat.and_zero]

/-- The lambda `is_matrix` tests for rank 2 or 3. -/
theorem is_matrix_iff (t : Tensor) : is_matrix t = true ↔ rankOk t := by
  unfold is_matrix rankOk; simp

/-- Dimension 0 of the rank-3 view is the batch size. -/
theorem const_view_batch (t : Tensor) : (to_const_eigen_tensor t).getD 0 0 = batchOf t := by
  unfold to_const_eigen_tensor batchOf; split <;> simp

/-- The dimension of the left view that `mat_mul` compares. -/
theorem const_view_contracted_lhs (t : Tensor) (tl : Bool) :
    (to_const_eigen_tensor t).getD (2 - tl.toNat) 0 = contractedLhs t tl := by
  unfold to_const_eigen_tensor contractedLhs rowsOf colsOf
  cases tl <;> split <;> simp

/-- The dimension of the right view that `mat_mul` compares. -/
theorem const_view_contracted_rhs (t : Tensor) (tr : Bool) :
    (to_const_eigen_tensor t).getD (1 + tr.toNat) 0 = contractedRhs t tr := by
  unfold to_const_eigen_tensor contractedRhs rowsOf colsOf
  cases tr <;> split <;> simp

/-- Dimension 0 of the rank-4 destination view is the batch size. -/
theorem out_view_batch (t : Tensor) : (to_eigen_tensor t).getD 0 0 = batchOf t := by
  unfold to_eigen_tensor batchOf; split <;> simp

/-- A value representable in a type of at most 1024 bits is below `2 ^ 1024` in magnitude. -/
theorem inRange_natAbs_lt (T : IntType) (z : Int) (hb : T.bits ≤ 1024)
    (h : inRange T z = true) : z.natAbs < 2 ^ 1024 := by
  have hp : (2 : Int) ^ T.bits ≤ 2 ^ 1024 := pow_le_pow_right₀ (by norm_num) hb
  have hp1 : (2 : Int) ^ (T.bits - 1) ≤ 2 ^ T.bits :=
    pow_le_pow_right₀ (by norm_num) (Nat.sub_le _ _)
  have hlt : |z| < (2 : Int) ^ 1024 := by
    rw [abs_lt]
    unfold inRange at h
    split at h
    · simp only [Bool.and_eq_true, decide_eq_true_eq] at h
      constructor
      · have : (0 : Int) < 2 ^ T.bits := by positivity
        have hlast : (2 : Int) ^ (T.bits - 1) < 2 ^ 1024 := by
          rcases Nat.eq_zero_or_pos T.bits with h0 | hpos
          · rw [h0]; norm_num
          · exact lt_of_lt_of_le (pow_lt_pow_right₀ (by norm_num) (by omega)) hp
        linarith [h.1]
      · linarith [h.2]
    · simp only [Bool.and_eq_true, decide_eq_true_eq] at h
      constructor
      · have : (0 : Int) < 2 ^ 1024 := by positivity
        linarith [h.1]
      · linarith [h.2]
  rw [Int.abs_eq_natAbs] at hlt
  exact_mod_cast hlt

/-- A `double` whose integer part fits in `T` is finite. -/
theorem no_overflow_of_inRange (T : IntType) (m e : Int) (hb : T.bits ≤ 1024)
    (h : inRange T (FP.trunc m e) = true) : FP.overflows m e = false := by
  have hz := inRange_natAbs_lt T _ hb h
  unfold FP.trunc at hz
  unfold FP.overflows
  split
  · rename_i he
    rw [if_pos he, Int.natAbs_mul, Int.natAbs_pow] at hz
    simp only [decide_eq_false_iff_not, not_le]
    exact hz
  · rename_i he
    rw [if_neg he, Int.natAbs_tdiv, Int.natAbs_pow] at hz
    simp only [decide_eq_false_iff_not, not_le]
    have hd : m.natAbs / 2 ^ (-e).toNat < 2 ^ 1024 := hz
    have hpos : 0 < 2 ^ (-e).toNat := Nat.two_pow_pos _
    by_contra hc
    push_neg at hc
    have := (Nat.le_div_iff_mul_le hpos).mpr hc
    omega

/-- Scaling a finite value by `2 ^ s` with `s <= 1023` and converting truncates the exact product. -/
theorem castT_scaled (T : IntType) (P : Platform) (m e : Int) (s : Nat)
    (hs : s ≤ 1023) (hb : T.bits ≤ 1024) (h : inRange T (FP.trunc m (e + s)) = true) :
    castT T P (FP.mul (FP.finite m e) (FP.pow2 s)) = ofInt T (FP.trunc m (e + s)) := by
  unfold FP.pow2
  rw [if_pos hs]
  have hno := no_overflow_of_inRange T m (e + s) hb h
  simp only [FP.mul, mul_one, hno, Bool.false_eq_true, if_false, castT, h, if_true]

/-- Unfolding of `unravel` on a non-empty shape. -/
theorem unravel_cons (d : Nat) (ds : List Nat) (lin : Nat) :
    unravel (d :: ds) lin = (lin / ds.prod) :: unravel ds (lin % ds.prod) := rfl

/-- The trailing part of a multi-index over a concatenated shape. -/
theorem unravel_drop (xs ys : List Nat) (lin : Nat) (h : lin < (xs ++ ys).prod) :
    (unravel (xs ++ ys) lin).drop xs.length = unravel ys (lin % ys.prod) := by
  induction xs generalizing lin with
  | nil =>
    rw [List.nil_append] at h
    rw [List.nil_append, List.length_nil, List.drop_zero, Nat.mod_eq_of_lt h]
  | cons x xs ih =>
    rw [List.cons_append, unravel_cons, List.length_cons, List.drop_succ_cons]
    rw [List.cons_append, List.prod_cons] at h
    have hpos : 0 < (xs ++ ys).prod := by
      rcases Nat.eq_zero_or_pos (xs ++ ys).prod with h0 | h0
      · rw [h0] at h; simp at h
      · exact h0
    rw [ih _ (Nat.mod_lt _ hpos), List.prod_append, Nat.mod_mul_left_mod]

/-- The leading part of a multi-index over a concatenated shape. -/
theorem unravel_take (xs ys : List Nat) (lin : Nat) :
    (unravel (xs ++ ys) lin).take xs.length = unravel xs (lin / ys.prod) := by
  induction xs generalizing lin with
  | nil => simp [unravel]
  | cons x xs ih =>
    rw [List.cons_append, unravel_cons, List.length_cons, List.take_succ_cons, ih, unravel_cons,
      List.prod_append, Nat.div_div_eq_div_mul, Nat.mod_mul_left_div_self, Nat.mul_comm ys.prod]

/-- Normal form of a contraction: the coefficient at offset `lin` pairs the
left multi-index `lin / |free b|` with the right multi-index `lin % |free b|`. -/
theorem contract_eq (T : IntType) (da a db b : List Nat) (p q : Nat) :
    contract T da a db b p q =
      (List.range ((da.eraseIdx p).prod * (db.eraseIdx q).prod)).map fun lin =>
        (((List.range (da.getD p 0)).map fun t =>
          coeff da a (insertAt (unravel (da.eraseIdx p) (lin / (db.eraseIdx q).prod)) p t) *
            coeff db b (insertAt (unravel (db.eraseIdx q) (lin % (db.eraseIdx q).prod)) q t)).sum)
          % 2 ^ T.bits := by
  unfold contract
  simp only []
  rw [List.prod_append]
  apply List.map_congr_left
  intro lin hlin
  rw [List.mem_range, ← List.prod_append] at hlin
  rw [unravel_take, unravel_drop _ _ _ hlin]

/-- Congruence for contractions with the same free dimensions. -/
theorem contract_congr (T : IntType) (da a db b da2 a2 db2 b2 : List Nat) (p q p2 q2 : Nat)
    (hfa : da.eraseIdx p = da2.eraseIdx p2) (hfb : db.eraseIdx q = db2.eraseIdx q2)
    (hk : da.getD p 0 = da2.getD p2 0)
    (hca : ∀ x t, x < (da.eraseIdx p).prod → t < da.getD p 0 →
      coeff da a (insertAt (unravel (da.eraseIdx p) x) p t) =
        coeff da2 a2 (insertAt (unravel (da.eraseIdx p) x) p2 t))
    (hcb : ∀ y t, y < (db.eraseIdx q).prod → t < da.getD p 0 →
      coeff db b (insertAt (unravel (db.eraseIdx q) y) q t) =
        coeff db2 b2 (insertAt (unravel (db.eraseIdx q) y) q2 t)) :
    contract T da a db b p q = contract T da2 a2 db2 b2 p2 q2 := by
  rw [contract_eq, contract_eq, ← hfa, ← hfb, ← hk]
  apply List.map_congr_left
  intro lin hlin
  rw [List.mem_range] at hlin
  have hpos : 0 < (db.eraseIdx q).prod := by
    rcases Nat.eq_zero_or_pos (db.eraseIdx q).prod with h0 | h0
    · rw [h0] at hlin; simp at hlin
    · exact h0
  have hx : lin / (db.eraseIdx q).prod < (da.eraseIdx p).prod :=
    (Nat.div_lt_iff_lt_mul hpos).mpr hlin
  have hy : lin % (db.eraseIdx q).prod < (db.eraseIdx q).prod := Nat.mod_lt _ hpos
  congr 2
  apply List.map_congr_left
  intro t ht
  rw [List.mem_range] at ht
  rw [hca _ _ hx ht, hcb _ _ hy ht]

/-- Decomposition of a row-major offset into batch, row and column. -/
theorem transpose_index (i0 i t r c : Nat) (hi : i < c) (ht : t < r) :
    (i0 * (c * r) + (i * r + t)) / (c * r) = i0 ∧ (i0 * (c * r) + (i * r + t)) % r = t ∧
      (i0 * (c * r) + (i * r + t)) % (c * r) / r = i := by
  have hr : 0 < r := by omega
  have hc : 0 < c := by omega
  have hlt : i * r + t < c * r := by
    calc i * r + t < i * r + r := by omega
      _ = (i + 1) * r := by ring
      _ ≤ c * r := Nat.mul_le_mul_right _ hi
  have hcr : 0 < c * r := Nat.mul_pos hc hr
  refine ⟨?_, ?_, ?_⟩
  · rw [Nat.add_comm, Nat.add_mul_div_right _ _ hcr, Nat.div_eq_of_lt hlt, Nat.zero_add]
  · have e : i0 * (c * r) + (i * r + t) = t + (i0 * c + i) * r := by ring
    rw [e, Nat.add_mul_mod_self_right, Nat.mod_eq_of_lt ht]
  · rw [Nat.add_comm, Nat.add_mul_mod_self_right, Nat.mod_eq_of_lt hlt, Nat.add_comm,
      Nat.add_mul_div_right _ _ hr, Nat.div_eq_of_lt ht, Nat.zero_add]

/-- Entry `(i, t)` of a transposed slice is entry `(t, i)` of the original. -/
theorem transposeData_getD (B r c : Nat) (a : List Nat) (i0 i t : Nat)
    (h0 : i0 < B) (hi : i < c) (ht : t < r) :
    (transposeData B r c a).getD (i0 * (c * r) + (i * r + t)) 0 =
      a.getD (i0 * (r * c) + (t * c + i)) 0 := by
  have hlt : i * r + t < c * r := by
    calc i * r + t < i * r + r := by omega
      _ = (i + 1) * r := by ring
      _ ≤ c * r := Nat.mul_le_mul_right _ hi
  have hL : i0 * (c * r) + (i * r + t) < B * (c * r) := by
    calc i0 * (c * r) + (i * r + t) < i0 * (c * r) + c * r := by omega
      _ = (i0 + 1) * (c * r) := by ring
      _ ≤ B * (c * r) := Nat.mul_le_mul_right _ h0
  obtain ⟨e1, e2, e3⟩ := transpose_index i0 i t r c hi ht
  unfold transposeData
  rw [List.getD_eq_getElem?_getD, List.getElem?_map, List.getElem?_range hL]
  simp only [Option.map_some', Option.getD_some]
  rw [e1, e2, e3]

/-- Reading inside a window of a list. -/
theorem getD_take_drop (l : List Nat) (o n k : Nat) (hk : k < n) :
    ((l.drop o).take n).getD k 0 = l.getD (o + k) 0 := by
  rw [List.getD_eq_getElem?_getD, List.getD_eq_getElem?_getD, List.getElem?_take, if_pos hk,
    List.getElem?_drop]

/-- A chip of the transposed storage is the transposed chip. -/
theorem chip0_transposeData_getD (B r c : Nat) (a : List Nat) (i0 i t : Nat)
    (h0 : i0 < B) (hi : i < c) (ht : t < r) :
    (chip0 [B, c, r] (transposeData B r c a) i0).getD (i * r + t) 0 =
      (chip0 [B, r, c] a i0).getD (t * c + i) 0 := by
  have hlt : i * r + t < c * r := by
    calc i * r + t < i * r + r := by omega
      _ = (i + 1) * r := by ring
      _ ≤ c * r := Nat.mul_le_mul_right _ hi
  have hlt2 : t * c + i < r * c := by
    calc t * c + i < t * c + c := by omega
      _ = (t + 1) * c := by ring
      _ ≤ r * c := Nat.mul_le_mul_right _ ht
  unfold chip0
  simp only [List.tail_cons, List.prod_cons, List.prod_nil, Nat.mul_one]
  rw [getD_take_drop _ _ _ _ hlt, getD_take_drop _ _ _ _ hlt2, transposeData_getD B r c a i0 i t h0 hi ht]

/-- Contracting the row axis of the left operand equals contracting the column axis of its transpose. -/
theorem contract_transpose_lhs3 (T : IntType) (B r c : Nat) (a db b : List Nat) (q : Nat) :
    contract T [B, r, c] a db b 1 q = contract T [B, c, r] (transposeData B r c a) db b 2 q := by
  apply contract_congr
  · rfl
  · rfl
  · rfl
  · intro x t hx ht
    simp only [List.eraseIdx, List.prod_cons, List.prod_nil, Nat.mul_one, List.getD_cons_succ,
      List.getD_cons_zero] at hx ht ⊢
    have hc : 0 < c := by
      rcases Nat.eq_zero_or_pos c with h0 | h0
      · rw [h0] at hx; simp at hx
      · exact h0
    have h1 : x / c < B := (Nat.div_lt_iff_lt_mul hc).mpr hx
    have h2 : x % c < c := Nat.mod_lt _ hc
    have := transposeData_getD B r c a (x / c) (x % c) t h1 h2 ht
    simp only [unravel, insertAt, coeff, ravel, List.prod_cons, List.prod_nil, Nat.mul_one,
      Nat.div_one, List.take, List.drop, List.cons_append, List.nil_append, Nat.add_zero]
    rw [this]
  · intro y t _ _
    rfl

/-- Contracting the column axis of the right operand equals contracting the row axis of its transpose. -/
theorem contract_transpose_rhs3 (T : IntType) (B r c : Nat) (da a b : List Nat) (p : Nat)
    (hk : da.getD p 0 = c) :
    contract T da a [B, r, c] b p 2 = contract T da a [B, c, r] (transposeData B r c b) p 1 := by
  apply contract_congr
  · rfl
  · rfl
  · rfl
  · intro x t _ _
    rfl
  · intro y t hy ht
    rw [hk] at ht
    simp only [List.eraseIdx, List.prod_cons, List.prod_nil, Nat.mul_one] at hy ⊢
    have hr : 0 < r := by
      rcases Nat.eq_zero_or_pos r with h0 | h0
      · rw [h0] at hy; simp at hy
      · exact h0
    have h1 : y / r < B := (Nat.div_lt_iff_lt_mul hr).mpr hy
    have h2 : y % r < r := Nat.mod_lt _ hr
    simp only [unravel, insertAt, coeff, ravel, List.prod_cons, List.prod_nil, Nat.mul_one,
      Nat.div_one, List.take, List.drop, List.cons_append, List.nil_append, Nat.add_zero]
    rw [transposeData_getD B r c b (y / r) t (y % r) h1 ht h2]

/-- The same for the left operand of a per-batch contraction. -/
theorem contract_transpose_lhs2 (T : IntType) (B r c : Nat) (a db y : List Nat) (q i : Nat)
    (hi : i < B) :
    contract T [r, c] (chip0 [B, r, c] a i) db y 0 q =
      contract T [c, r] (chip0 [B, c, r] (transposeData B r c a) i) db y 1 q := by
  apply contract_congr
  · rfl
  · rfl
  · rfl
  · intro x t hx ht
    simp only [List.eraseIdx, List.prod_cons, List.prod_nil, Nat.mul_one, List.getD_cons_succ,
      List.getD_cons_zero] at hx ht ⊢
    simp only [unravel, insertAt, coeff, ravel, List.prod_cons, List.prod_nil, Nat.mul_one,
      Nat.div_one, List.take, List.drop, List.cons_append, List.nil_append, Nat.add_zero]
    rw [chip0_transposeData_getD B r c a i x t hi hx ht]
  · intro y t _ _
    rfl

/-- The same for the right operand of a per-batch contraction. -/
theorem contract_transpose_rhs2 (T : IntType) (B r c : Nat) (da x b : List Nat) (p i : Nat)
    (hk : da.getD p 0 = c) (hi : i < B) :
    contract T da x [r, c] (chip0 [B, r, c] b i) p 1 =
      contract T da x [c, r] (chip0 [B, c, r] (transposeData B r c b) i) p 0 := by
  apply contract_congr
  · rfl
  · rfl
  · rfl
  · intro x t _ _
    rfl
  · intro y t hy ht
    rw [hk] at ht
    simp only [List.eraseIdx, List.prod_cons, List.prod_nil, Nat.mul_one] at hy ⊢
    simp only [unravel, insertAt, coeff, ravel, List.prod_cons, List.prod_nil, Nat.mul_one,
      Nat.div_one, List.take, List.drop, List.cons_append, List.nil_append, Nat.add_zero]
    rw [chip0_transposeData_getD B r c b i t y hi ht hy]

/-- Two folds agree when their steps agree on the members of the list. -/
theorem foldl_congr_mem {α β : Type} (f g : β → α → β) (l : List α) (init : β)
    (h : ∀ x ∈ l, ∀ acc, f acc x = g acc x) : l.foldl f init = l.foldl g init := by
  induction l generalizing init with
  | nil => rfl
  | cons x xs ih =>
    rw [List.foldl_cons, List.foldl_cons, h x (List.mem_cons_self _ _)]
    exact ih _ (fun y hy => h y (List.mem_cons_of_mem _ hy))

/-- The rank-3 view of a matrix-like tensor. -/
theorem const_view_of_rankOk (t : Tensor) (h : rankOk t) :
    to_const_eigen_tensor t = [batchOf t, rowsOf t, colsOf t] := by
  unfold to_const_eigen_tensor batchOf rowsOf colsOf
  rcases h with h | h
  · simp [h]
  · have h2 : ¬ t.dims.length = 2 := by omega
    simp only [h2, if_false]
    match hd : t.dims, h with
    | [d0, d1, d2], _ => simp

/-- Transposition keeps the placement. -/
theorem transposed_place (t : Tensor) : t.transposed.place = t.place := by
  unfold Tensor.transposed; split_ifs <;> rfl

/-- Transposition keeps the rank. -/
theorem transposed_rank (t : Tensor) : t.transposed.dims.length = t.dims.length := by
  unfold Tensor.transposed; split_ifs with h1 h2
  · simp [h1]
  · simp [h2]
  · rfl

/-- Transposition leaves a tensor that is not matrix-like alone. -/
theorem transposed_of_not_rankOk (t : Tensor) (h : ¬ rankOk t) : t.transposed = t := by
  unfold rankOk at h
  unfold Tensor.transposed
  rw [if_neg (fun h2 => h (Or.inl h2)), if_neg (fun h3 => h (Or.inr h3))]

/-- View and storage of a transposed matrix-like tensor. -/
theorem transposed_view (t : Tensor) (h : rankOk t) :
    to_const_eigen_tensor t.transposed = [batchOf t, colsOf t, rowsOf t] ∧
      t.transposed.data = transposeData (batchOf t) (rowsOf t) (colsOf t) t.data := by
  unfold Tensor.transposed
  rcases h with h | h
  · rw [if_pos h]
    constructor
    · simp [to_const_eigen_tensor, batchOf, h]
    · simp [batchOf, h]
  · have h2 : ¬ t.dims.length = 2 := by omega
    rw [if_neg h2, if_pos h]
    constructor
    · simp [to_const_eigen_tensor]
    · rfl

/-- Transposition keeps `is_matrix`. -/
theorem is_matrix_transposed (t : Tensor) : is_matrix t.transposed = is_matrix t := by
  unfold is_matrix; rw [transposed_rank]

/-- With a left operand that is not matrix-like the outcome does not depend on the flags. -/
theorem mat_mul_not_matrix_lhs (T : IntType) (A B dst : PaddleTensor) (tl tl2 tr tr2 : Bool)
    (h : ¬ rankOk A.tensor) : mat_mul T A B dst tl tr = mat_mul T A B dst tl2 tr2 := by
  have hm : is_matrix A.tensor = false := by
    rw [← Bool.not_eq_true, is_matrix_iff]; exact h
  unfold mat_mul
  simp only [hm, Bool.false_and, Bool.false_eq_true, not_false_eq_true, if_true]

/-- Setting `trans_lhs` equals transposing the left operand in storage. -/
theorem mat_mul_trans_lhs (T : IntType) (A B dst : PaddleTensor) (tr : Bool) :
    mat_mul T A B dst true tr =
      mat_mul T { A with tensor := A.tensor.transposed } B dst false tr := by
  by_cases hrk : rankOk A.tensor
  · obtain ⟨hv, hd⟩ := transposed_view A.tensor hrk
    unfold mat_mul
    simp only [transposed_place, is_matrix_transposed, transposed_rank, hv, hd,
      const_view_of_rankOk A.tensor hrk, Bool.toNat_true, Bool.toNat_false,
      List.getD_cons_succ, List.getD_cons_zero, Nat.sub_zero, List.tail_cons]
    split_ifs
    all_goals first
      | rfl
      | rw [show (2 - 1) = 1 from rfl, contract_transpose_lhs3]
      | (congr 2
         apply foldl_congr_mem
         intro i hi acc
         rw [List.mem_range] at hi
         show storeAt _ _ _ = storeAt _ _ _
         rw [show (1 - 1) = 0 from rfl, contract_transpose_lhs2 _ _ _ _ _ _ _ _ _ hi])
  · rw [transposed_of_not_rankOk _ hrk]
    exact mat_mul_not_matrix_lhs T A B dst _ _ _ _ hrk

/-- With a right operand that is not matrix-like the outcome does not depend on the flags. -/
theorem mat_mul_not_matrix_rhs (T : IntType) (A B dst : PaddleTensor) (tl tl2 tr tr2 : Bool)
    (h : ¬ rankOk B.tensor) : mat_mul T A B dst tl tr = mat_mul T A B dst tl2 tr2 := by
  have hm : is_matrix B.tensor = false := by
    rw [← Bool.not_eq_true, is_matrix_iff]; exact h
  unfold mat_mul
  simp only [hm, Bool.false_and, Bool.and_false, Bool.false_eq_true, not_false_eq_true, if_true]

/-- Setting `trans_rhs` equals transposing the right operand in storage. -/
theorem mat_mul_trans_rhs (T : IntType) (A B dst : PaddleTensor) (tl : Bool) :
    mat_mul T A B dst tl true =
      mat_mul T A { B with tensor := B.tensor.transposed } dst tl false := by
  by_cases hrk : rankOk B.tensor
  · obtain ⟨hv, hd⟩ := transposed_view B.tensor hrk
    unfold mat_mul
    simp only [transposed_place, is_matrix_transposed, transposed_rank, hv, hd,
      const_view_of_rankOk B.tensor hrk, Bool.toNat_true, Bool.toNat_false,
      List.getD_cons_succ, List.getD_cons_zero, Nat.add_zero, List.tail_cons]
    split_ifs with h1 h2 h3 h4 h5 h6 h7
    all_goals first
      | rfl
      | rw [show (1 + 1) = 2 from rfl, contract_transpose_rhs3 _ _ _ _ _ _ _ _ (not_not.mp h4)]
      | (have hA : rankOk A.tensor := by
           simp only [Bool.and_eq_true, is_matrix_iff] at h2
           exact h2.1.1
         have hB : batchOf B.tensor = (to_const_eigen_tensor A.tensor).getD 0 0 := by
           rcases h5 with h5 | h5
           · exact h5
           · exact absurd h5 h7
         have hk : (to_const_eigen_tensor A.tensor).tail.getD (1 - tl.toNat) 0 = colsOf B.tensor := by
           rw [← not_not.mp h4, const_view_of_rankOk _ hA]
           cases tl <;> rfl
         congr 2
         apply foldl_congr_mem
         intro i hi acc
         rw [List.mem_range, ← hB] at hi
         show storeAt _ _ _ = storeAt _ _ _
         rw [show (0 + 1) = 1 from rfl, contract_transpose_rhs2 _ _ _ _ _ _ _ _ _ hk hi])
  · rw [transposed_of_not_rankOk _ hrk]
    exact mat_mul_not_matrix_rhs T A B dst _ _ _ _ hrk

/-- A product of an `m x k` by a `k x n` matrix has `m * n` entries. -/
theorem matrixProduct_length (T : IntType) (k n m : Nat) (x y : List Nat) :
    (matrixProduct T k n m x y).length = m * n := by
  unfold matrixProduct; simp

/-- The rank-2 contraction over `(1, 0)` is the matrix product. -/
theorem contract_rank2 (T : IntType) (m k n : Nat) (x y : List Nat) :
    contract T [m, k] x [k, n] y 1 0 = matrixProduct T k n m x y := by
  rw [contract_eq]
  unfold matrixProduct
  simp only [List.eraseIdx, List.prod_cons, List.prod_nil, Nat.mul_one, List.getD_cons_succ,
    List.getD_cons_zero, unravel, insertAt, coeff, ravel, Nat.div_one, List.take, List.drop,
    List.cons_append, List.nil_append, Nat.add_zero]

/-- Contracting a batch with one shared right matrix is the product of the stacked rows. -/
theorem contract_rank3_shared (T : IntType) (B m k n : Nat) (a b : List Nat) :
    contract T [B, m, k] a [1, k, n] b 2 1 = matrixProduct T k n (B * m) a b := by
  rw [contract_eq]
  unfold matrixProduct
  simp only [List.eraseIdx, List.prod_cons, List.prod_nil, Nat.mul_one, Nat.one_mul,
    List.getD_cons_succ, List.getD_cons_zero]
  apply List.map_congr_left
  intro lin hlin
  rw [List.mem_range] at hlin
  congr 2
  apply List.map_congr_left
  intro t _
  have hn : 0 < n := by
    rcases Nat.eq_zero_or_pos n with h0 | h0
    · rw [h0] at hlin; simp at hlin
    · exact h0
  simp only [unravel, insertAt, coeff, ravel, List.prod_cons, List.prod_nil, Nat.mul_one,
    Nat.div_one, List.take, List.drop, List.cons_append, List.nil_append, Nat.add_zero,
    Nat.one_mul, Nat.mod_mod, Nat.zero_mul, Nat.zero_add]
  have e1 : lin / n / m * (m * k) + (lin / n % m * k + t) = lin / n * k + t := by
    have := Nat.div_add_mod (lin / n) m
    calc lin / n / m * (m * k) + (lin / n % m * k + t)
        = (m * (lin / n / m) + lin / n % m) * k + t := by ring
      _ = lin / n * k + t := by rw [this]
  have e2 : lin % n / n = 0 := Nat.div_eq_of_lt (Nat.mod_lt _ hn)
  rw [e1, e2]
  simp

/-- A row-major offset stays below the element count. -/
theorem lin_lt (m n i j : Nat) (hi : i < m) (hj : j < n) : i * n + j < m * n := by
  calc i * n + j < i * n + n := by omega
    _ = (i + 1) * n := by ring
    _ ≤ m * n := Nat.mul_le_mul_right _ hi

/-- Entry `(i, j)` of a matrix product. -/
theorem matrixProduct_getElem? (T : IntType) (k n m : Nat) (x y : List Nat) (i j : Nat)
    (hi : i < m) (hj : j < n) :
    (matrixProduct T k n m x y)[i * n + j]? =
      some ((((List.range k).map fun t => entry x k i t * entry y n t j).sum) % 2 ^ T.bits) := by
  have hn : 0 < n := by omega
  unfold matrixProduct entry
  rw [List.getElem?_map, List.getElem?_range (lin_lt m n i j hi hj)]
  have e1 : (i * n + j) / n = i := by
    rw [Nat.add_comm, Nat.add_mul_div_right _ _ hn, Nat.div_eq_of_lt hj, Nat.zero_add]
  have e2 : (i * n + j) % n = j := by
    rw [Nat.add_comm, Nat.add_mul_mod_self_right, Nat.mod_eq_of_lt hj]
  simp only [Option.map_some', e1, e2]

/-- Outcome of `mat_mul` on two rank-2 operands. -/
theorem mat_mul_rank2 (T : IntType) (a b dst : PaddleTensor) (m k n : Nat)
    (ha : a.tensor.dims = [m, k]) (hb : b.tensor.dims = [k, n])
    (hd : dst.tensor.dims = [m, n] ∨ dst.tensor.dims = [1, m, n])
    (hpb : a.tensor.place = b.tensor.place) (hpd : a.tensor.place = dst.tensor.place)
    (hlen : dst.tensor.data.length = m * n) :
    mat_mul T a b dst false false =
      Except.ok (dst.withData (matrixProduct T k n m a.tensor.data b.tensor.data)) := by
  have hva : to_const_eigen_tensor a.tensor = [1, m, k] := by
    simp [to_const_eigen_tensor, ha]
  have hvb : to_const_eigen_tensor b.tensor = [1, k, n] := by
    simp [to_const_eigen_tensor, hb]
  have hvd : (to_eigen_tensor dst.tensor).getD 0 0 = 1 := by
    rcases hd with hd | hd <;> simp [to_eigen_tensor, hd]
  have hm : (is_matrix a.tensor && is_matrix b.tensor && is_matrix dst.tensor) = true := by
    rcases hd with hd | hd <;> simp [is_matrix, ha, hb, hd]
  unfold mat_mul
  simp only [hva, hvb, hvd, hm, hpb.symm, hpd.symm, ha, hb, and_self, not_true_eq_false, if_false,
    List.length_cons, List.length_nil, ge_iff_le, le_refl, Bool.toNat_false, Nat.sub_zero,
    Nat.add_zero, List.getD_cons_succ, List.getD_cons_zero, ne_eq, or_self, if_true,
    contract_rank3_shared, Nat.one_mul]
  rw [storeAt_zero_full _ _ (by rw [matrixProduct_length, hlen])]

/-- A window of a list is determined by its cells. -/
theorem take_drop_ext (l g : List Nat) (o s : Nat) (hg : g.length = s)
    (h : ∀ x, x < s → l[o + x]? = g[x]?) : (l.drop o).take s = g := by
  apply List.ext_getElem?
  intro x
  rw [List.getElem?_take, List.getElem?_drop]
  by_cases hx : x < s
  · rw [if_pos hx, h x hx]
  · rw [if_neg hx]
    symm; rw [List.getElem?_eq_none_iff]; omega

/-- A sequence of stores never changes the size of the buffer. -/
theorem foldl_storeAt_length (g : Nat → List Nat) (off : Nat → Nat) (buf : List Nat)
    (l : List Nat) :
    (l.foldl (fun buf i => storeAt buf (off i) (g i)) buf).length = buf.length := by
  induction l generalizing buf with
  | nil => rfl
  | cons x xs ih => rw [List.foldl_cons, ih, storeAt_length]

/-- After the per-batch loop, block `i` of the buffer holds what iteration `i` wrote. -/
theorem foldl_storeAt_blocks (g : Nat → List Nat) (s : Nat) (hg : ∀ i, (g i).length = s)
    (buf : List Nat) (B : Nat) (hbuf : B * s ≤ buf.length) (i x : Nat) (hi : i < B)
    (hx : x < s) :
    ((List.range B).foldl (fun buf i => storeAt buf (i * s) (g i)) buf)[i * s + x]? =
      (g i)[x]? := by
  induction B with
  | zero => omega
  | succ B ih =>
    rw [List.range_succ, List.foldl_append, List.foldl_cons, List.foldl_nil, storeAt_getElem?,
      foldl_storeAt_length, hg]
    have hs : (B + 1) * s = B * s + s := by ring
    have hidx : i * s + x < buf.length := by
      have := lin_lt (B + 1) s i x hi hx
      omega
    rw [if_pos hidx]
    by_cases hB : i = B
    · subst hB
      rw [if_pos ⟨by omega, by omega⟩]
      congr 1; omega
    · have hiB : i < B := by omega
      have := lin_lt B s i x hiB hx
      rw [if_neg (by omega)]
      exact ih (by omega) hiB

/-- Slice `i` of the product of the stacked rows is the product of slice `i`. -/
theorem chip0_matrixProduct_shared (T : IntType) (B m k n : Nat) (a y : List Nat) (i : Nat)
    (hi : i < B) :
    chip0 [B, m, n] (matrixProduct T k n (B * m) a y) i =
      matrixProduct T k n m (chip0 [B, m, k] a i) (chip0 [1, k, n] y 0) := by
  unfold chip0
  simp only [List.tail_cons, List.prod_cons, List.prod_nil, Nat.mul_one, Nat.zero_mul,
    List.drop_zero]
  apply take_drop_ext _ _ _ _ (matrixProduct_length _ _ _ _ _ _)
  intro x hx
  have hn : 0 < n := by
    rcases Nat.eq_zero_or_pos n with h0 | h0
    · rw [h0] at hx; simp at hx
    · exact h0
  have hxm : x / n < m := (Nat.div_lt_iff_lt_mul hn).mpr hx
  have hlt : i * (m * n) + x < B * m * n := by
    have := lin_lt B (m * n) i x hi hx
    rw [Nat.mul_assoc]; exact this
  unfold matrixProduct
  rw [List.getElem?_map, List.getElem?_map, List.getElem?_range hlt, List.getElem?_range hx]
  simp only [Option.map_some', Option.some.injEq]
  congr 2
  apply List.map_congr_left
  intro t ht
  rw [List.mem_range] at ht
  have e1 : (i * (m * n) + x) / n = i * m + x / n := by
    have : i * (m * n) + x = x + (i * m) * n := by ring
    rw [this, Nat.add_mul_div_right _ _ hn]; ring
  have e2 : (i * (m * n) + x) % n = x % n := by
    have : i * (m * n) + x = x + (i * m) * n := by ring
    rw [this, Nat.add_mul_mod_self_right]
  have h1 : x / n * k + t < m * k := lin_lt m k _ _ hxm ht
  have h2 : t * n + x % n < k * n := lin_lt k n _ _ ht (Nat.mod_lt _ hn)
  rw [e1, e2, getD_take_drop _ _ _ _ h1]
  have e3 : (List.take (k * n) y).getD (t * n + x % n) 0 = y.getD (t * n + x % n) 0 := by
    rw [List.getD_eq_getElem?_getD, List.getD_eq_getElem?_getD, List.getElem?_take, if_pos h2]
  rw [e3]
  congr 2
  ring

/-- Outcome of `mat_mul` on a batch and a right operand of batch size 1. -/
theorem mat_mul_batched_shared (T : IntType) (a b dst : PaddleTensor) (B m k n : Nat)
    (ha : a.tensor.dims = [B, m, k])
    (hb : b.tensor.dims = [1, k, n] ∨ b.tensor.dims = [k, n])
    (hd : dst.tensor.dims = [B, m, n])
    (hpb : a.tensor.place = b.tensor.place) (hpd : a.tensor.place = dst.tensor.place)
    (hlen : dst.tensor.data.length = B * m * n) :
    mat_mul T a b dst false false =
      Except.ok (dst.withData (matrixProduct T k n (B * m) a.tensor.data b.tensor.data)) := by
  have hva : to_const_eigen_tensor a.tensor = [B, m, k] := by
    simp [to_const_eigen_tensor, ha]
  have hvb : to_const_eigen_tensor b.tensor = [1, k, n] := by
    rcases hb with hb | hb <;> simp [to_const_eigen_tensor, hb]
  have hvd : (to_eigen_tensor dst.tensor).getD 0 0 = B := by
    simp [to_eigen_tensor, hd]
  have hm : (is_matrix a.tensor && is_matrix b.tensor && is_matrix dst.tensor) = true := by
    rcases hb with hb | hb <;> simp [is_matrix, ha, hb, hd]
  have hr : a.tensor.dims.length ≥ b.tensor.dims.length := by
    rcases hb with hb | hb <;> simp [ha, hb]
  unfold mat_mul
  simp only [hva, hvb, hvd, hm, hr, hpb.symm, hpd.symm, and_self, not_true_eq_false, if_false,
    Bool.toNat_false, Nat.sub_zero, Nat.add_zero, List.getD_cons_succ, List.getD_cons_zero,
    ne_eq, or_true, if_true, contract_rank3_shared]
  rw [storeAt_zero_full _ _ (by rw [matrixProduct_length, hlen])]

/-- Outcome of `mat_mul` on two batches of the same size other than 1. -/
theorem mat_mul_batched_each (T : IntType) (a b dst : PaddleTensor) (B m k n : Nat)
    (ha : a.tensor.dims = [B, m, k]) (hb : b.tensor.dims = [B, k, n]) (hB : B ≠ 1)
    (hd : dst.tensor.dims = [B, m, n])
    (hpb : a.tensor.place = b.tensor.place) (hpd : a.tensor.place = dst.tensor.place) :
    mat_mul T a b dst false false =
      Except.ok (dst.withData ((List.range B).foldl
        (fun buf i => storeAt buf (i * (m * n))
          (matrixProduct T k n m (chip0 [B, m, k] a.tensor.data i) (chip0 [B, k, n] b.tensor.data i)))
        dst.tensor.data)) := by
  have hva : to_const_eigen_tensor a.tensor = [B, m, k] := by
    simp [to_const_eigen_tensor, ha]
  have hvb : to_const_eigen_tensor b.tensor = [B, k, n] := by
    simp [to_const_eigen_tensor, hb]
  have hvd : to_eigen_tensor dst.tensor = [B, m, 1, n] := by
    simp [to_eigen_tensor, hd]
  have hm : (is_matrix a.tensor && is_matrix b.tensor && is_matrix dst.tensor) = true := by
    simp [is_matrix, ha, hb, hd]
  have hr : a.tensor.dims.length ≥ b.tensor.dims.length := by simp [ha, hb]
  unfold mat_mul
  simp only [hva, hvb, hvd, hm, hr, hB, hpb.symm, hpd.symm, and_self, not_true_eq_false, if_false,
    Bool.toNat_false, Nat.sub_zero, Nat.add_zero, List.getD_cons_succ, List.getD_cons_zero,
    ne_eq, true_or, if_true, List.tail_cons, contract_rank2, Nat.mul_assoc]

/-- A slice of a well-sized buffer has `m * n` entries. -/
theorem chip0_length (B m n : Nat) (l : List Nat) (i : Nat) (hi : i < B)
    (hl : l.length = B * m * n) : (chip0 [B, m, n] l i).length = m * n := by
  unfold chip0
  simp only [List.tail_cons, List.prod_cons, List.prod_nil, Nat.mul_one, List.length_take,
    List.length_drop, hl]
  have h1 : (i + 1) * (m * n) ≤ B * (m * n) := Nat.mul_le_mul_right _ hi
  have h2 : (i + 1) * (m * n) = i * (m * n) + m * n := by ring
  have h3 : B * m * n = B * (m * n) := Nat.mul_assoc _ _ _
  omega

/-- Slices of the broadcast result are rank-2 products. -/
theorem slice_of_shared (T : IntType) (a b dst : PaddleTensor) (B m k n i : Nat)
    (ha : a.tensor.dims = [B, m, k])
    (hb : b.tensor.dims = [1, k, n] ∨ b.tensor.dims = [k, n])
    (hd : dst.tensor.dims = [B, m, n])
    (hpb : a.tensor.place = b.tensor.place) (hpd : a.tensor.place = dst.tensor.place)
    (hlen : dst.tensor.data.length = B * m * n) (hi : i < B) :
    ∃ r2, mat_mul T (slice2D a i) (slice2D b (if batchOf b.tensor = 1 then 0 else i))
        (slice2D dst i) false false = Except.ok r2 ∧
      (slice2D (dst.withData (matrixProduct T k n (B * m) a.tensor.data b.tensor.data)) i).tensor
        = r2.tensor ∧
      r2.tensor.data = matrixProduct T k n m (slice2D a i).tensor.data
        (slice2D b (if batchOf b.tensor = 1 then 0 else i)).tensor.data := by
  have hbb : batchOf b.tensor = 1 := by
    rcases hb with hb | hb <;> simp [batchOf, hb]
  have hbr : rowsOf b.tensor = k := by
    rcases hb with hb | hb <;> simp [rowsOf, hb]
  have hbc : colsOf b.tensor = n := by
    rcases hb with hb | hb <;> simp [colsOf, hb]
  have hsa : (slice2D a i).tensor.dims = [m, k] := by simp [slice2D, rowsOf, colsOf, ha]
  have hsb : (slice2D b (if batchOf b.tensor = 1 then 0 else i)).tensor.dims = [k, n] := by
    simp [slice2D, hbr, hbc]
  have hsd : (slice2D dst i).tensor.dims = [m, n] := by simp [slice2D, rowsOf, colsOf, hd]
  have hsl : (slice2D dst i).tensor.data.length = m * n := by
    have : (slice2D dst i).tensor.data = chip0 [B, m, n] dst.tensor.data i := by
      simp [slice2D, rowsOf, colsOf, batchOf, hd]
    rw [this]; exact chip0_length B m n _ i hi hlen
  refine ⟨_, mat_mul_rank2 T _ _ _ m k n hsa hsb (Or.inl hsd) hpb hpd hsl, ?_, rfl⟩
  have hX : chip0 [B, m, n] (matrixProduct T k n (B * m) a.tensor.data b.tensor.data) i =
      matrixProduct T k n m (chip0 [B, m, k] a.tensor.data i) (chip0 [1, k, n] b.tensor.data 0) :=
    chip0_matrixProduct_shared T B m k n _ _ i hi
  simp only [slice2D, PaddleTensor.withData, rowsOf, colsOf, batchOf, hd, ha, hbb, hbr, hbc,
    List.length_cons, List.length_nil, List.getD_cons_succ, List.getD_cons_zero, if_true]
  simp only [Nat.reduceAdd, Nat.reduceEqDiff, if_false, hX]
  rcases hb with hb | hb <;> simp [hb]

/-- Slices of the per-batch result are rank-2 products. -/
theorem slice_of_each (T : IntType) (a b dst : PaddleTensor) (B m k n i : Nat)
    (ha : a.tensor.dims = [B, m, k]) (hb : b.tensor.dims = [B, k, n]) (hB : B ≠ 1)
    (hd : dst.tensor.dims = [B, m, n])
    (hpb : a.tensor.place = b.tensor.place) (hpd : a.tensor.place = dst.tensor.place)
    (hlen : dst.tensor.data.length = B * m * n) (hi : i < B) :
    ∃ r2, mat_mul T (slice2D a i) (slice2D b (if batchOf b.tensor = 1 then 0 else i))
        (slice2D dst i) false false = Except.ok r2 ∧
      (slice2D (dst.withData ((List.range B).foldl
        (fun buf i => storeAt buf (i * (m * n))
          (matrixProduct T k n m (chip0 [B, m, k] a.tensor.data i) (chip0 [B, k, n] b.tensor.data i)))
        dst.tensor.data)) i).tensor = r2.tensor ∧
      r2.tensor.data = matrixProduct T k n m (slice2D a i).tensor.data
        (slice2D b (if batchOf b.tensor = 1 then 0 else i)).tensor.data := by
  have hbb : batchOf b.tensor = B := by simp [batchOf, hb]
  have hbr : rowsOf b.tensor = k := by simp [rowsOf, hb]
  have hbc : colsOf b.tensor = n := by simp [colsOf, hb]
  have hsa : (slice2D a i).tensor.dims = [m, k] := by simp [slice2D, rowsOf, colsOf, ha]
  have hsb : (slice2D b (if batchOf b.tensor = 1 then 0 else i)).tensor.dims = [k, n] := by
    simp [slice2D, hbr, hbc]
  have hsd : (slice2D dst i).tensor.dims = [m, n] := by simp [slice2D, rowsOf, colsOf, hd]
  have hsl : (slice2D dst i).tensor.data.length = m * n := by
    have : (slice2D dst i).tensor.data = chip0 [B, m, n] dst.tensor.data i := by
      simp [slice2D, rowsOf, colsOf, batchOf, hd]
    rw [this]; exact chip0_length B m n _ i hi hlen
  refine ⟨_, mat_mul_rank2 T _ _ _ m k n hsa hsb (Or.inl hsd) hpb hpd hsl, ?_, rfl⟩
  have hX : chip0 [B, m, n] ((List.range B).foldl
        (fun buf i => storeAt buf (i * (m * n))
          (matrixProduct T k n m (chip0 [B, m, k] a.tensor.data i) (chip0 [B, k, n] b.tensor.data i)))
        dst.tensor.data) i =
      matrixProduct T k n m (chip0 [B, m, k] a.tensor.data i) (chip0 [B, k, n] b.tensor.data i) := by
    unfold chip0
    simp only [List.tail_cons, List.prod_cons, List.prod_nil, Nat.mul_one]
    apply take_drop_ext _ _ _ _ (matrixProduct_length _ _ _ _ _ _)
    intro x hx
    exact foldl_storeAt_blocks
      (fun i => matrixProduct T k n m (List.take (m * k) (List.drop (i * (m * k)) a.tensor.data))
        (List.take (k * n) (List.drop (i * (k * n)) b.tensor.data)))
      (m * n) (fun _ => matrixProduct_length _ _ _ _ _ _) dst.tensor.data B
      (by rw [hlen, Nat.mul_assoc]) i x hi hx
  simp only [slice2D, PaddleTensor.withData, rowsOf, colsOf, batchOf, hd, ha, hb, hbb, hbr, hbc,
    List.length_cons, List.length_nil, List.getD_cons_succ, List.getD_cons_zero, if_true]
  simp only [Nat.reduceAdd, Nat.reduceEqDiff, if_false, hX, hB]

/-! ## Matrix multiplication -/

/-- C1: for rank-2 tensors `a` of shape `[m, k]` and `b` of shape `[k, n]` and a
destination of shape `[m, n]` or `[1, m, n]` (holding its `m * n` elements),
all on one placement, `mat_mul(a, b, false, false)` succeeds, keeps shape and
scaling factor of the destination, and writes at `(i, j)` the sum over `t < k`
of `a[i][t] * b[t][j]` taken modulo `2 ^ bits`. -/
theorem mat_mul_rank2_product (T : IntType) (a b dst : PaddleTensor) (m k n : Nat)
    (ha : a.tensor.dims = [m, k]) (hb : b.tensor.dims = [k, n])
    (hd : dst.tensor.dims = [m, n] ∨ dst.tensor.dims = [1, m, n])
    (hpb : a.tensor.place = b.tensor.place) (hpd : a.tensor.place = dst.tensor.place)
    (hlen : dst.tensor.data.length = m * n) :
    ∃ r, mat_mul T a b dst false false = Except.ok r ∧
      r.tensor.dims = dst.tensor.dims ∧ r.tensor.data.length = m * n ∧
      r.scaling_factor = dst.scaling_factor ∧
      ∀ i j, i < m → j < n →
        r.tensor.data[i * n + j]? =
          some ((((List.range k).map fun t =>
            entry a.tensor.data k i t * entry b.tensor.data n t j).sum) % 2 ^ T.bits) :=
  ⟨_, mat_mul_rank2 T a b dst m k n ha hb hd hpb hpd hlen, rfl, matrixProduct_length _ _ _ _ _ _,
    rfl, fun i j hi hj => matrixProduct_getElem? T k n m _ _ i j hi hj⟩

/-- The claim C1 on the `[2, 3] x [3, 4]` example. -/
theorem mat_mul_rank2_product_witness :
    ∃ r, mat_mul int64 exA exB exDst false false = Except.ok r ∧
      r.tensor.dims = exDst.tensor.dims ∧ r.tensor.data.length = 2 * 4 ∧
      r.scaling_factor = exDst.scaling_factor ∧
      ∀ i j, i < 2 → j < 4 →
        r.tensor.data[i * 4 + j]? =
          some ((((List.range 3).map fun t =>
            entry exA.tensor.data 3 i t * entry exB.tensor.data 4 t j).sum) % 2 ^ int64.bits) :=
  mat_mul_rank2_product int64 exA exB exDst 2 3 4 rfl rfl (Or.inl rfl) rfl rfl rfl

/-- The `[2, 3] x [3, 4]` example evaluated: the standard `[2, 4]` product. -/
theorem mat_mul_example_2x3_3x4 :
    mat_mul int64 exA exB exDst false false =
      Except.ok (mkTensor [2, 4] [10, 2, 5, 6, 22, 5, 14, 15]) := by
  rfl

/-- C2: for a batched call with both flags false (lhs `[B, m, k]`; rhs
`[B, k, n]`, `[1, k, n]` or `[k, n]`; destination `[B, m, n]`; one placement)
`mat_mul` succeeds and, for every `i < B`, slice `i` of the result is what the
rank-2 `mat_mul` gives on slice `i` of the lhs and slice `i` of the rhs, or the
single rhs matrix when the rhs has batch size 1: the standard matrix product
of the two slices. -/
theorem mat_mul_batch_slices (T : IntType) (a b dst : PaddleTensor) (B m k n : Nat)
    (ha : a.tensor.dims = [B, m, k])
    (hb : b.tensor.dims = [B, k, n] ∨ b.tensor.dims = [1, k, n] ∨ b.tensor.dims = [k, n])
    (hd : dst.tensor.dims = [B, m, n])
    (hpb : a.tensor.place = b.tensor.place) (hpd : a.tensor.place = dst.tensor.place)
    (hlen : dst.tensor.data.length = B * m * n) :
    ∃ r, mat_mul T a b dst false false = Except.ok r ∧ r.tensor.dims = [B, m, n] ∧
      ∀ i, i < B →
        ∃ r2, mat_mul T (slice2D a i) (slice2D b (if batchOf b.tensor = 1 then 0 else i))
            (slice2D dst i) false false = Except.ok r2 ∧
          (slice2D r i).tensor = r2.tensor ∧
          r2.tensor.data = matrixProduct T k n m (slice2D a i).tensor.data
            (slice2D b (if batchOf b.tensor = 1 then 0 else i)).tensor.data := by
  have hshared : (b.tensor.dims = [1, k, n] ∨ b.tensor.dims = [k, n]) →
      ∃ r, mat_mul T a b dst false false = Except.ok r ∧ r.tensor.dims = [B, m, n] ∧
      ∀ i, i < B →
        ∃ r2, mat_mul T (slice2D a i) (slice2D b (if batchOf b.tensor = 1 then 0 else i))
            (slice2D dst i) false false = Except.ok r2 ∧
          (slice2D r i).tensor = r2.tensor ∧
          r2.tensor.data = matrixProduct T k n m (slice2D a i).tensor.data
            (slice2D b (if batchOf b.tensor = 1 then 0 else i)).tensor.data := fun hb2 =>
    ⟨_, mat_mul_batched_shared T a b dst B m k n ha hb2 hd hpb hpd hlen, hd,
      fun i hi => slice_of_shared T a b dst B m k n i ha hb2 hd hpb hpd hlen hi⟩
  rcases hb with hb | hb | hb
  · by_cases hB : B = 1
    · exact hshared (Or.inl (by rw [hb, hB]))
    · exact ⟨_, mat_mul_batched_each T a b dst B m k n ha hb hB hd hpb hpd, hd,
        fun i hi => slice_of_each T a b dst B m k n i ha hb hB hd hpb hpd hlen hi⟩
  · exact hshared (Or.inl hb)
  · exact hshared (Or.inr hb)

/-- The claim C2 on lhs `[5, 2, 3]` and rhs `[3, 4]`. -/
theorem mat_mul_batch_slices_witness :
    ∃ r, mat_mul int64 exBatchA exB exBatchDst false false = Except.ok r ∧
      r.tensor.dims = [5, 2, 4] ∧
      ∀ i, i < 5 →
        ∃ r2, mat_mul int64 (slice2D exBatchA i)
            (slice2D exB (if batchOf exB.tensor = 1 then 0 else i))
            (slice2D exBatchDst i) false false = Except.ok r2 ∧
          (slice2D r i).tensor = r2.tensor ∧
          r2.tensor.data = matrixProduct int64 3 4 2 (slice2D exBatchA i).tensor.data
            (slice2D exB (if batchOf exB.tensor = 1 then 0 else i)).tensor.data :=
  mat_mul_batch_slices int64 exBatchA exB exBatchDst 5 2 3 4 rfl (Or.inr (Or.inr rfl)) rfl rfl rfl
    rfl

/-- C3: for every call of `mat_mul`, accepted or not and on either path, the
outcome with flags `trans_lhs`, `trans_rhs` is the outcome with both flags false
on the operands whose 2-D slices have been transposed in storage where the
flag is set. -/
theorem mat_mul_transpose_flags (T : IntType) (A B dst : PaddleTensor) (tl tr : Bool) :
    mat_mul T A B dst tl tr =
      mat_mul T (A.transposeIf tl) (B.transposeIf tr) dst false false := by
  cases tl <;> cases tr
  · rfl
  · rw [mat_mul_trans_rhs]; rfl
  · rw [mat_mul_trans_lhs]; rfl
  · rw [mat_mul_trans_lhs, mat_mul_trans_rhs]; rfl

/-- The claim C3 on `exA` transposed in storage, with `trans_lhs` set. -/
theorem mat_mul_transpose_flags_witness :
    mat_mul int64 (mkTensor [3, 2] [1, 4, 2, 5, 3, 6]) exB exDst true false =
      mat_mul int64 ((mkTensor [3, 2] [1, 4, 2, 5, 3, 6]).transposeIf true)
        (exB.transposeIf false) exDst false false :=
  mat_mul_transpose_flags int64 (mkTensor [3, 2] [1, 4, 2, 5, 3, 6]) exB exDst true false

/-- Transposing `exA` in storage gives the `3 x 2` matrix `[[1, 4], [2, 5], [3, 6]]`. -/
theorem transposed_example :
    exA.tensor.transposed = (mkTensor [3, 2] [1, 4, 2, 5, 3, 6]).tensor := by
  decide

/-- The claim C3 evaluated: `exA` transposed in storage and flagged gives the product of `exA`. -/
theorem mat_mul_transpose_example :
    mat_mul int64 (mkTensor [3, 2] [1, 4, 2, 5, 3, 6]) exB exDst true false =
      Except.ok (mkTensor [2, 4] [10, 2, 5, 6, 22, 5, 14, 15]) := by
  rfl

/-! ## Shifts -/

/-- C4: for either signedness and every amount `n` below the word length,
`logical_rshift(n)` writes for the element `x` the unsigned right shift of its
raw word: bit `j` of the result is bit `j + n` of `x` for `j < bits - n`, the
bits from `bits - n` on are zero, and the result is `x` itself for `n = 0`. -/
theorem logical_rshift_zero_fills (T : IntType) (P : Platform) (n : Nat)
    (self ret : PaddleTensor) (i x : Nat)
    (hT : T.bits < 2 ^ size_bits) (hn : n < T.bits)
    (hx : self.tensor.elems[i]? = some x) (hxT : x < 2 ^ T.bits)
    (hi : i < ret.tensor.data.length) :
    ∃ y, (logical_rshift T P n self ret).tensor.data[i]? = some y ∧ y = x / 2 ^ n ∧
      (∀ j, j < T.bits - n → y.testBit j = x.testBit (j + n)) ∧
      (∀ j, T.bits - n ≤ j → y.testBit j = false) ∧ (n = 0 → y = x) := by
  have hlen : i < self.tensor.elems.length := by
    by_contra hc
    rw [List.getElem?_eq_none_iff.mpr (by omega)] at hx
    exact Option.noConfusion hx
  have hsplit : 2 ^ T.bits = 2 ^ (T.bits - n) * 2 ^ n := by
    rw [← Nat.pow_add]; congr 1; omega
  have hq : x / 2 ^ n < 2 ^ (T.bits - n) := by
    apply Nat.div_lt_of_lt_mul
    rw [Nat.mul_comm, ← hsplit]; exact hxT
  refine ⟨x / 2 ^ n, ?_, rfl, ?_, ?_, ?_⟩
  · show (storeAt ret.tensor.data 0 (self.tensor.elems.map (logical_rshift_functor T P n)))[i]? = _
    rw [storeAt_zero_map _ _ _ _ hi, if_pos hlen, hx, Option.map_some',
      logical_rshift_functor_eq T P n x hT hn hxT]
  · intro j _
    rw [← Nat.shiftRight_eq_div_pow, Nat.testBit_shiftRight, Nat.add_comm]
  · intro j hj
    apply Nat.testBit_lt_two_pow
    exact lt_of_lt_of_le hq (Nat.pow_le_pow_right (by norm_num) hj)
  · intro h0; subst h0; simp

/-- The claim C4 on the `int64_t` value `-8` shifted by 3. -/
theorem logical_rshift_zero_fills_witness :
    ∃ y, (logical_rshift int64 x86_64 3 exWords exWordsDst).tensor.data[0]? = some y ∧
      y = (2 ^ 64 - 8) / 2 ^ 3 ∧
      (∀ j, j < int64.bits - 3 → y.testBit j = (2 ^ 64 - 8).testBit (j + 3)) ∧
      (∀ j, int64.bits - 3 ≤ j → y.testBit j = false) ∧ (3 = 0 → y = 2 ^ 64 - 8) :=
  logical_rshift_zero_fills int64 x86_64 3 exWords exWordsDst 0 (2 ^ 64 - 8)
    (by decide) (by decide) (by decide) (by decide) (by decide)

/-- C5: for every shift amount `n` that is at least the word length,
`logical_rshift(n)` writes zero for every element, whatever the machine yields
for the two over-long shifts. -/
theorem logical_rshift_over_width_zero (T : IntType) (P : Platform) (n : Nat)
    (self ret : PaddleTensor) (i : Nat) (hn : T.bits ≤ n)
    (hi : i < self.tensor.elems.length) (hr : i < ret.tensor.data.length) :
    (logical_rshift T P n self ret).tensor.data[i]? = some 0 := by
  show (storeAt ret.tensor.data 0 (self.tensor.elems.map (logical_rshift_functor T P n)))[i]? = _
  rw [storeAt_zero_map _ _ _ _ hr, if_pos hi, List.getElem?_eq_getElem hi, Option.map_some',
    logical_rshift_functor_over T P n _ hn]

/-- The claim C5 for `n = 64` on `int64_t`. -/
theorem logical_rshift_over_width_zero_witness :
    (logical_rshift int64 x86_64 64 exWords exWordsDst).tensor.data[1]? = some 0 :=
  logical_rshift_over_width_zero int64 x86_64 64 exWords exWordsDst 1
    (by decide) (by decide) (by decide)

/-! ## Conversion from floating point -/

/-- C6, as amended: `from_float_point_type` produces a tensor with the shape and
element count of the source and the scaling factor `s`; and for `s <= 1023`
(and `T` of at most 1024 bits) element `i` is the truncation toward zero of
`source[i] * 2 ^ s` whenever that fits in `T`. -/
theorem from_float_point_type_spec (T : IntType) (P : Platform) (mem : Nat → Nat)
    (self : PaddleTensor) (src : FloatTensor) (s : Nat)
    (hsrc : src.data.length = src.dims.prod) :
    (from_float_point_type T P mem self src s).tensor.dims = src.dims ∧
    (from_float_point_type T P mem self src s).tensor.data.length = src.data.length ∧
    (from_float_point_type T P mem self src s).scaling_factor = s ∧
    ∀ (i : Nat) (m e : Int), s ≤ 1023 → T.bits ≤ 1024 →
      src.data[i]? = some (FP.finite m e) → inRange T (FP.trunc m (e + s)) = true →
      (from_float_point_type T P mem self src s).tensor.data[i]? =
        some (ofInt T (FP.trunc m (e + s))) := by
  refine ⟨rfl, ?_, rfl, ?_⟩
  · show (storeAt _ 0 _).length = _
    rw [storeAt_length]
    simp [mutable_data, hsrc]
  · intro i m e hs hb hi hr
    have hlen : i < src.data.length := by
      by_contra hc
      rw [List.getElem?_eq_none_iff.mpr (by omega)] at hi
      exact Option.noConfusion hi
    show (storeAt _ 0 _)[i]? = _
    rw [storeAt_getElem?]
    have h1 : i < (mutable_data T mem src.dims self.ctx_place).data.length := by
      simp [mutable_data]; omega
    rw [if_pos h1, ← hsrc, List.take_length]
    simp only [Nat.zero_le, true_and, Nat.zero_add, List.length_map, hlen, if_true, Nat.sub_zero]
    rw [List.getElem?_map, hi, Option.map_some', castT_scaled T P m e s hs hb hr]

/-- The amended claim C6 on the values `1.5` and `-1.75` with `s = 16`: the
raw integer of `1.5` is 98304. -/
theorem from_float_point_type_spec_witness :
    (from_float_point_type int64 x86_64 (fun _ => 0) exThree exFloats 16).tensor.dims = [2] ∧
    (from_float_point_type int64 x86_64 (fun _ => 0) exThree exFloats 16).tensor.data.length = 2 ∧
    (from_float_point_type int64 x86_64 (fun _ => 0) exThree exFloats 16).scaling_factor = 16 ∧
    (from_float_point_type int64 x86_64 (fun _ => 0) exThree exFloats 16).tensor.data[0]? =
      some 98304 :=
  ⟨(from_float_point_type_spec int64 x86_64 (fun _ => 0) exThree exFloats 16 rfl).1,
   (from_float_point_type_spec int64 x86_64 (fun _ => 0) exThree exFloats 16 rfl).2.1,
   (from_float_point_type_spec int64 x86_64 (fun _ => 0) exThree exFloats 16 rfl).2.2.1,
   (from_float_point_type_spec int64 x86_64 (fun _ => 0) exThree exFloats 16 rfl).2.2.2 0 3 (-1)
     (by decide) (by decide) rfl (by decide)⟩

set_option exponentiation.threshold 2048 in
/-- The value `1.5` with scaling factor 16 becomes the raw integer 98304, and
`-1.75` becomes the word of `-114688`; the recorded scaling factor is 16. -/
theorem from_float_point_type_example :
    from_float_point_type int64 x86_64 (fun _ => 0) exThree exFloats 16 =
      { tensor := { dims := [2], data := [98304, 2 ^ 64 - 114688], place := 0 },
        ctx_place := 0, scaling_factor := 16 } := by
  decide

/-- C6 as stated fails for `s = 1024`: `2 ^ -1000 * 2 ^ 1024 = 2 ^ 24` and
`2 ^ -999 * 2 ^ 1024 = 2 ^ 25` are representable in `int64_t`, but
`std::pow(2, 1024)` is infinite and so are both products; the two elements
written are what the machine answers for infinity (`2 ^ 63` as a raw word on
x86-64), and on no machine are they `2 ^ 24` and `2 ^ 25`. -/
theorem from_float_point_type_counterexample :
    (exTiny.data[0]? = some (FP.finite 1 (-1000)) ∧
      inRange int64 (FP.trunc 1 (-1000 + (1024 : Nat))) = true ∧
      ofInt int64 (FP.trunc 1 (-1000 + (1024 : Nat))) = 2 ^ 24 ∧
      exTiny.data[1]? = some (FP.finite 1 (-999)) ∧
      inRange int64 (FP.trunc 1 (-999 + (1024 : Nat))) = true ∧
      ofInt int64 (FP.trunc 1 (-999 + (1024 : Nat))) = 2 ^ 25) ∧
    (from_float_point_type int64 x86_64 (fun _ => 0) exThree exTiny 1024).tensor.data =
      [2 ^ 63, 2 ^ 63] ∧
    ∀ P : Platform,
      ¬ ((from_float_point_type int64 P (fun _ => 0) exThree exTiny 1024).tensor.data[0]? =
            some (2 ^ 24) ∧
          (from_float_point_type int64 P (fun _ => 0) exThree exTiny 1024).tensor.data[1]? =
            some (2 ^ 25)) := by
  refine ⟨by decide, by decide, ?_⟩
  intro P h
  have h0 : (from_float_point_type int64 P (fun _ => 0) exThree exTiny 1024).tensor.data =
      [P.castOver (FP.inf false) % 2 ^ 64, P.castOver (FP.inf false) % 2 ^ 64] := by
    rfl
  rw [h0] at h
  obtain ⟨ha, hb⟩ := h
  simp only [List.getElem?_cons_zero, List.getElem?_cons_succ, Option.some.injEq] at ha hb
  rw [ha] at hb
  exact absurd hb (by decide)

/-- C7, as amended: whatever the tensor held before, `from_float_point_scalar`
leaves it with the requested shape, every element equal to one value (the
conversion to `T` of the `double` product `scalar * 2 ^ s`) and the scaling
factor `s`; that value is the truncation toward zero of `scalar * 2 ^ s`
whenever `s <= 1023` and the truncation fits in `T` (of at most 1024 bits). -/
theorem from_float_point_scalar_spec (T : IntType) (P : Platform) (mem : Nat → Nat)
    (self : PaddleTensor) (scalar : FP) (shape : List Nat) (s : Nat) :
    (from_float_point_scalar T P mem self scalar shape s).tensor.dims = shape ∧
    (from_float_point_scalar T P mem self scalar shape s).tensor.data =
      List.replicate shape.prod (castT T P (FP.mul scalar (FP.pow2 s))) ∧
    (from_float_point_scalar T P mem self scalar shape s).scaling_factor = s ∧
    ∀ (m e : Int), scalar = FP.finite m e → s ≤ 1023 → T.bits ≤ 1024 →
      inRange T (FP.trunc m (e + s)) = true →
      castT T P (FP.mul scalar (FP.pow2 s)) = ofInt T (FP.trunc m (e + s)) := by
  refine ⟨rfl, ?_, rfl, ?_⟩
  · show storeAt _ 0 _ = _
    have hl : (reshape T mem self shape).tensor.data.length = shape.prod := by
      simp [reshape, mutable_data]
    have he : (reshape T mem self shape).tensor.elems = (reshape T mem self shape).tensor.data :=
      elems_of_length _ hl
    rw [he, storeAt_zero_full _ _ (by simp), List.map_const', hl]
  · intro m e hsc hs hb hr
    rw [hsc]
    exact castT_scaled T P m e s hs hb hr

set_option exponentiation.threshold 2048 in
/-- The amended claim C7 on the scalar `1.5`, shape `[2, 2]` and `s = 16`, over
a tensor that held three other words: four times 98304. -/
theorem from_float_point_scalar_spec_witness :
    (from_float_point_scalar int64 x86_64 (fun i => i) exThree (FP.finite 3 (-1)) [2, 2]
      16).tensor.dims = [2, 2] ∧
    (from_float_point_scalar int64 x86_64 (fun i => i) exThree (FP.finite 3 (-1)) [2, 2]
      16).tensor.data = List.replicate 4 98304 ∧
    (from_float_point_scalar int64 x86_64 (fun i => i) exThree (FP.finite 3 (-1)) [2, 2]
      16).scaling_factor = 16 :=
  ⟨(from_float_point_scalar_spec int64 x86_64 (fun i => i) exThree (FP.finite 3 (-1)) [2, 2] 16).1,
   ((from_float_point_scalar_spec int64 x86_64 (fun i => i) exThree (FP.finite 3 (-1)) [2, 2]
      16).2.1).trans (by decide),
   (from_float_point_scalar_spec int64 x86_64 (fun i => i) exThree (FP.finite 3 (-1)) [2, 2]
      16).2.2.1⟩

set_option exponentiation.threshold 2048 in
/-- The scalar `1.5` with scaling factor 16 fills a `[2, 2]` tensor with 98304. -/
theorem from_float_point_scalar_example :
    from_float_point_scalar int64 x86_64 (fun i => i) exThree (FP.finite 3 (-1)) [2, 2] 16 =
      { tensor := { dims := [2, 2], data := [98304, 98304, 98304, 98304], place := 0 },
        ctx_place := 0, scaling_factor := 16 } := by
  decide

set_option exponentiation.threshold 2048 in
set_option maxRecDepth 8192 in
/-- C7 as stated fails for the scalar `2 ^ 100` with `s = 0` on `int64_t`: the
truncation `2 ^ 100` is no value of the type; on x86-64 the element written
denotes `-2 ^ 63`, and on no machine does it denote `2 ^ 100`. -/
theorem from_float_point_scalar_counterexample :
    FP.trunc 1 (100 + (0 : Nat)) = 2 ^ 100 ∧
    (from_float_point_scalar int64 x86_64 (fun i => i) exThree (FP.finite 1 100) [1]
      0).tensor.data = [2 ^ 63] ∧
    toInt int64 (2 ^ 63) = -(2 ^ 63) ∧
    ∀ (P : Platform) (y : Nat),
      y ∈ (from_float_point_scalar int64 P (fun i => i) exThree (FP.finite 1 100) [1]
        0).tensor.data → toInt int64 y ≠ FP.trunc 1 (100 + (0 : Nat)) := by
  refine ⟨by decide, by decide, by decide, ?_⟩
  intro P y hy
  have h0 : (from_float_point_scalar int64 P (fun i => i) exThree (FP.finite 1 100) [1]
      0).tensor.data = [P.castOver (FP.finite 1 100) % 2 ^ 64] := by
    rfl
  rw [h0, List.mem_singleton] at hy
  have hlt : y < 2 ^ 64 := by rw [hy]; exact Nat.mod_lt _ (by norm_num)
  have hle : toInt int64 y ≤ (y : Int) := by
    unfold toInt
    split
    · have : (0 : Int) < 2 ^ int64.bits := by positivity
      omega
    · exact le_refl _
  have htr : FP.trunc 1 (100 + (0 : Nat)) = 2 ^ 100 := by decide
  rw [htr]
  have hy2 : (y : Int) < 2 ^ 64 := by exact_mod_cast hlt
  have : (2 : Int) ^ 64 < 2 ^ 100 := by norm_num
  omega

/-! ## Elementwise family -/

/-- C8: for tensors `a` and `b` of equal shape over `T`, `add(a, b)` into `r`
followed by `sub(r, b)` into a destination of that shape yields the elements
of `a` exactly, sums that wrap around included. -/
theorem add_then_sub_reproduces (T : IntType) (a b r0 dst : PaddleTensor)
    (hab : a.tensor.dims = b.tensor.dims) (hr : r0.tensor.dims = a.tensor.dims)
    (hd : dst.tensor.dims = a.tensor.dims)
    (wa : a.tensor.WF T) (wb : b.tensor.WF T)
    (wr : r0.tensor.data.length = r0.tensor.numel)
    (wd : dst.tensor.data.length = dst.tensor.numel) :
    ∃ r out, add T a b r0 = Except.ok r ∧ sub T r b dst = Except.ok out ∧
      out.tensor.dims = a.tensor.dims ∧ out.tensor.data = a.tensor.data := by
  have na : a.tensor.numel = b.tensor.numel := by unfold Tensor.numel; rw [hab]
  have nr : r0.tensor.numel = a.tensor.numel := by unfold Tensor.numel; rw [hr]
  have nd : dst.tensor.numel = a.tensor.numel := by unfold Tensor.numel; rw [hd]
  have la : a.tensor.data.length = b.tensor.data.length := by rw [wa.1, wb.1, na]
  have hsum : (List.zipWith (addT T) a.tensor.data b.tensor.data).length = r0.tensor.data.length := by
    rw [List.length_zipWith, ← la, Nat.min_self, wr, nr, wa.1]
  refine ⟨r0.withData (List.zipWith (addT T) a.tensor.data b.tensor.data),
    dst.withData a.tensor.data, ?_, ?_, ?_, rfl⟩
  · unfold add
    rw [if_neg (by simpa using hab), elems_of_length _ wa.1, elems_of_length _ wb.1,
      storeAt_zero_full _ _ hsum]
  · unfold sub
    have hdims : (r0.withData (List.zipWith (addT T) a.tensor.data b.tensor.data)).tensor.dims
        = b.tensor.dims := by
      show r0.tensor.dims = _
      rw [hr, hab]
    rw [if_neg (by simpa using hdims)]
    have he : (r0.withData (List.zipWith (addT T) a.tensor.data b.tensor.data)).tensor.elems
        = List.zipWith (addT T) a.tensor.data b.tensor.data := by
      apply elems_of_length
      show (List.zipWith (addT T) a.tensor.data b.tensor.data).length = r0.tensor.numel
      rw [hsum, wr]
    rw [he, elems_of_length _ wb.1, zipWith_sub_add T _ _ la wa.2,
      storeAt_zero_full _ _ (by rw [wd, nd, wa.1])]
  · show dst.tensor.dims = _
    exact hd

/-- The claim C8 on `uint8_t` values whose sums wrap around. -/
theorem add_then_sub_reproduces_witness :
    ∃ r out, add uint8 exBytesA exBytesB exWordsDst = Except.ok r ∧
      sub uint8 r exBytesB exWordsDst = Except.ok out ∧
      out.tensor.dims = exBytesA.tensor.dims ∧ out.tensor.data = exBytesA.tensor.data :=
  add_then_sub_reproduces uint8 exBytesA exBytesB exWordsDst exWordsDst rfl rfl rfl
    ⟨rfl, by decide⟩ ⟨rfl, by decide⟩ rfl rfl

/-- C9: each of `add`, `sub`, `mul`, `div`, `bitwise_and`, `bitwise_or` and
`bitwise_xor` called on operands whose shapes differ throws at the shape check
("Input dims should be equal."), which precedes every write: no new state of
the destination is produced. -/
theorem binary_ops_reject_shape_mismatch (T : IntType) (self rhs ret : PaddleTensor)
    (h : self.tensor.dims ≠ rhs.tensor.dims) :
    add T self rhs ret = Except.error Abort.inputDimsNotEqual ∧
    sub T self rhs ret = Except.error Abort.inputDimsNotEqual ∧
    mul T self rhs ret = Except.error Abort.inputDimsNotEqual ∧
    div T self rhs ret = Except.error Abort.inputDimsNotEqual ∧
    bitwise_and self rhs ret = Except.error Abort.inputDimsNotEqual ∧
    bitwise_or self rhs ret = Except.error Abort.inputDimsNotEqual ∧
    bitwise_xor self rhs ret = Except.error Abort.inputDimsNotEqual := by
  refine ⟨?_, ?_, ?_, ?_, ?_, ?_, ?_⟩
  · unfold add; rw [if_pos h]
  · unfold sub; rw [if_pos h]
  · unfold mul; rw [if_pos h]
  · unfold div; rw [if_pos h]
  · unfold bitwise_and; rw [if_pos h]
  · unfold bitwise_or; rw [if_pos h]
  · unfold bitwise_xor; rw [if_pos h]

/-- The claim C9 on operands of shapes `[2]` and `[3]`. -/
theorem binary_ops_reject_shape_mismatch_witness :
    add int64 exWords exThree exWordsDst = Except.error Abort.inputDimsNotEqual ∧
    sub int64 exWords exThree exWordsDst = Except.error Abort.inputDimsNotEqual ∧
    mul int64 exWords exThree exWordsDst = Except.error Abort.inputDimsNotEqual ∧
    div int64 exWords exThree exWordsDst = Except.error Abort.inputDimsNotEqual ∧
    bitwise_and exWords exThree exWordsDst = Except.error Abort.inputDimsNotEqual ∧
    bitwise_or exWords exThree exWordsDst = Except.error Abort.inputDimsNotEqual ∧
    bitwise_xor exWords exThree exWordsDst = Except.error Abort.inputDimsNotEqual :=
  binary_ops_reject_shape_mismatch int64 exWords exThree exWordsDst (by decide)

/-- C10: a `mat_mul` call with operands or destination on different placements,
with an operand or destination of rank other than 2 or 3, with contracted
dimensions that differ under the flags, with a rhs batch size that is neither
the lhs batch size nor 1, or with a destination batch size other than the lhs
batch size, throws at one of the checks, all of which precede the computation:
no new state of the destination is produced. -/
theorem mat_mul_rejects_violations (T : IntType) (a b dst : PaddleTensor) (tl tr : Bool)
    (h : a.tensor.place ≠ b.tensor.place ∨ a.tensor.place ≠ dst.tensor.place ∨
      b.tensor.place ≠ dst.tensor.place ∨
      ¬ rankOk a.tensor ∨ ¬ rankOk b.tensor ∨ ¬ rankOk dst.tensor ∨
      contractedLhs a.tensor tl ≠ contractedRhs b.tensor tr ∨
      (batchOf b.tensor ≠ batchOf a.tensor ∧ batchOf b.tensor ≠ 1) ∨
      batchOf dst.tensor ≠ batchOf a.tensor) :
    ∃ e, mat_mul T a b dst tl tr = Except.error e := by
  unfold mat_mul
  simp only []
  split
  · exact ⟨_, rfl⟩
  · rename_i hp
    split
    · exact ⟨_, rfl⟩
    · rename_i hm
      split
      · exact ⟨_, rfl⟩
      · split
        · exact ⟨_, rfl⟩
        · rename_i hc
          split
          · exact ⟨_, rfl⟩
          · rename_i hb
            split
            · exact ⟨_, rfl⟩
            · rename_i ho
              exfalso
              rw [const_view_contracted_lhs, const_view_contracted_rhs] at hc
              rw [const_view_batch, const_view_batch] at hb
              rw [out_view_batch, const_view_batch] at ho
              simp only [Bool.and_eq_true, is_matrix_iff, not_not] at hm hp hc hb ho
              rcases h with h | h | h | h | h | h | h | h | h
              · exact h hp.1
              · exact h hp.2
              · exact h (hp.1.symm.trans hp.2)
              · exact h hm.1.1
              · exact h hm.1.2
              · exact h hm.2
              · exact h hc
              · rcases hb with hb | hb
                · exact h.1 hb
                · exact h.2 hb
              · exact h ho

/-- The claim C10 on a `[2, 3]` by `[2, 3]` product, whose contracted sizes 3 and 2 differ. -/
theorem mat_mul_rejects_violations_witness :
    ∃ e, mat_mul int64 exA exA exDst false false = Except.error e :=
  mat_mul_rejects_violations int64 exA exA exDst false false
    (Or.inr (Or.inr (Or.inr (Or.inr (Or.inr (Or.inr (Or.inl (by decide))))))))

/-! ## Slicing -/

/-- Outcome of `Tensor::Slice` on a range inside the first axis. -/
theorem Slice_ok (t : Tensor) (b e L : Nat) (rest : List Nat) (hd : t.dims = L :: rest)
    (hbe : b ≤ e) (heL : e ≤ L) :
    t.Slice b e = Except.ok
      { dims := (e - b) :: rest,
        data := (t.data.drop (b * rest.prod)).take ((e - b) * rest.prod),
        place := t.place } := by
  unfold Tensor.Slice
  rw [hd]
  simp only [List.getD_cons_zero, List.tail_cons]
  rw [if_neg (by omega)]

/-- An entry of the sliced range is the entry of the source shifted by `begin`. -/
theorem chip0_slice (data : List Nat) (b n L j : Nat) (rest : List Nat) (hj : j < n) :
    chip0 (n :: rest) ((data.drop (b * rest.prod)).take (n * rest.prod)) j =
      chip0 (L :: rest) data (b + j) := by
  unfold chip0
  simp only [List.tail_cons]
  apply List.ext_getElem?
  intro x
  rw [List.getElem?_take, List.getElem?_take, List.getElem?_drop, List.getElem?_drop,
    List.getElem?_take, List.getElem?_drop]
  by_cases hx : x < rest.prod
  · have h1 : j * rest.prod + x < n * rest.prod := lin_lt n rest.prod j x hj hx
    rw [if_pos hx, if_pos hx, if_pos h1]
    congr 1
    ring
  · rw [if_neg hx, if_neg hx]

/-- C11: for a source whose first axis has length `L` and `begin < end <= L`,
`slice(begin, end, dst)` makes `dst` a tensor whose first axis has length
`end - begin`, whose remaining dimensions are the source's, whose `j`-th
first-axis entry is the source's `(begin + j)`-th, and whose scaling factor is
the source's (the source is only read). -/
theorem slice_range (self ret : PaddleTensor) (b e L : Nat) (rest : List Nat)
    (hd : self.tensor.dims = L :: rest) (hbe : b < e) (heL : e ≤ L) :
    ∃ r, slice self b e ret = Except.ok r ∧
      r.tensor.dims = (e - b) :: rest ∧
      r.scaling_factor = self.scaling_factor ∧
      ∀ j, j < e - b →
        chip0 r.tensor.dims r.tensor.data j = chip0 self.tensor.dims self.tensor.data (b + j) := by
  unfold slice
  rw [Slice_ok self.tensor b e L rest hd (Nat.le_of_lt hbe) heL]
  refine ⟨_, rfl, rfl, rfl, ?_⟩
  intro j hj
  rw [hd]
  exact chip0_slice self.tensor.data b (e - b) L j rest hj

/-- The claim C11 for `slice(1, 3, dst)` on a tensor of first-axis length 5. -/
theorem slice_range_witness :
    ∃ r, slice exRows 1 3 exThree = Except.ok r ∧
      r.tensor.dims = (3 - 1) :: [2] ∧
      r.scaling_factor = exRows.scaling_factor ∧
      ∀ j, j < 3 - 1 →
        chip0 r.tensor.dims r.tensor.data j =
          chip0 exRows.tensor.dims exRows.tensor.data (1 + j) :=
  slice_range exRows exThree 1 3 5 [2] rfl (by decide) (by decide)

/-- The call `slice(1, 3, dst)` evaluated: first-axis length 2, rows 1 and 2 of
the source, scaling factor 16. -/
theorem slice_example :
    slice exRows 1 3 exThree = Except.ok
      { tensor := { dims := [2, 2], data := [20, 21, 30, 31], place := 0 },
        ctx_place := 0, scaling_factor := 16 } := by
  rfl

/-- C12: for a source whose first axis has length `L`, `slice(begin, end, dst)`
fails with the index-out-of-range error whenever `begin > end` or `end > L`; the
failure comes from `Tensor::Slice`, before the two assignments to `dst`, so no
new state of `dst` is produced. -/
theorem slice_rejects_bad_range (self ret : PaddleTensor) (b e L : Nat) (rest : List Nat)
    (hd : self.tensor.dims = L :: rest) (h : b > e ∨ e > L) :
    slice self b e ret = Except.error Abort.indexOutOfRange := by
  unfold slice Tensor.Slice
  rw [hd]
  simp only [List.getD_cons_zero]
  rw [if_pos h]

/-- The claim C12 for `slice(3, 1, dst)`. -/
theorem slice_rejects_bad_range_witness :
    slice exRows 3 1 exThree = Except.error Abort.indexOutOfRange :=
  slice_rejects_bad_range exRows exThree 3 1 5 [2] rfl (Or.inl (by decide))

/-! ## Division -/

theorem toInt_ofInt (T : IntType) (z : Int) (hT : 0 < T.bits) (h : inRange T z = true) :
    toInt T (ofInt T z) = z := by
  have hsplit : (2 : Int) ^ T.bits = 2 * 2 ^ (T.bits - 1) := by
    rw [← pow_succ']; congr 1; omega
  have hpos : (0 : Int) < 2 ^ (T.bits - 1) := by positivity
  unfold inRange at h
  unfold toInt ofInt
  cases hs : T.isSigned
  · rw [hs] at h
    simp only [Bool.false_eq_true, if_false, Bool.and_eq_true, decide_eq_true_eq] at h
    simp only [Bool.false_and, Bool.false_eq_true, if_false]
    rw [Int.emod_eq_of_lt h.1 h.2, Int.toNat_of_nonneg h.1]
  · rw [hs] at h
    simp only [if_true, Bool.and_eq_true, decide_eq_true_eq] at h
    simp only [Bool.true_and, decide_eq_true_eq]
    by_cases hz : 0 ≤ z
    · rw [Int.emod_eq_of_lt hz (by omega)]
      have h1 : ¬ (2 ^ (T.bits - 1) ≤ z.toNat) := by
        intro hc
        have : ((2 ^ (T.bits - 1) : Nat) : Int) ≤ (z.toNat : Int) := by exact_mod_cast hc
        rw [Int.toNat_of_nonneg hz] at this
        push_cast at this
        omega
      rw [if_neg h1, Int.toNat_of_nonneg hz]
    · have e : z % 2 ^ T.bits = z + 2 ^ T.bits := by
        rw [Int.emod_eq_add_self_emod]
        exact Int.emod_eq_of_lt (by omega) (by omega)
      rw [e]
      have hnn : 0 ≤ z + 2 ^ T.bits := by omega
      have h1 : 2 ^ (T.bits - 1) ≤ (z + 2 ^ T.bits).toNat := by
        have : ((2 ^ (T.bits - 1) : Nat) : Int) ≤ ((z + 2 ^ T.bits).toNat : Int) := by
          rw [Int.toNat_of_nonneg hnn]; push_cast; omega
        exact_mod_cast this
      rw [if_pos h1, Int.toNat_of_nonneg hnn]
      ring

theorem toInt_bounds (T : IntType) (x : Nat) (hT : 0 < T.bits) (hx : x < 2 ^ T.bits) :
    (T.isSigned = false → toInt T x = (x : Int)) ∧
    (T.isSigned = true → -(2 ^ (T.bits - 1) : Int) ≤ toInt T x ∧ toInt T x < 2 ^ (T.bits - 1)) ∧
    (toInt T x = 0 → x = 0) ∧
    (T.isSigned = true → toInt T x = -(2 ^ (T.bits - 1) : Int) → x = 2 ^ (T.bits - 1)) ∧
    (T.isSigned = true → toInt T x = -1 → x = 2 ^ T.bits - 1) := by
  have hsplit : (2 : Int) ^ T.bits = 2 * 2 ^ (T.bits - 1) := by
    rw [← pow_succ']; congr 1; omega
  have hsplitN : (2 : Nat) ^ T.bits = 2 * 2 ^ (T.bits - 1) := by
    rw [← pow_succ']; congr 1; omega
  have hpos : (0 : Int) < 2 ^ (T.bits - 1) := by positivity
  have hxi : (x : Int) < 2 ^ T.bits := by exact_mod_cast hx
  have hcast : ((2 ^ (T.bits - 1) : Nat) : Int) = 2 ^ (T.bits - 1) := by push_cast; rfl
  unfold toInt
  cases hs : T.isSigned
  · simp only [Bool.false_and, Bool.false_eq_true, if_false, true_implies, false_implies,
      and_true, true_and]
    intro h; exact_mod_cast h
  · simp only [Bool.true_and, decide_eq_true_eq, true_implies, Bool.true_eq_false,
      false_implies, true_and]
    by_cases hc : 2 ^ (T.bits - 1) ≤ x
    · have hci : (2 ^ (T.bits - 1) : Int) ≤ (x : Int) := by rw [← hcast]; exact_mod_cast hc
      simp only [hc, if_true]
      refine ⟨⟨by omega, by omega⟩, by omega, ?_, ?_⟩
      · intro h
        have : (x : Int) = 2 ^ (T.bits - 1) := by omega
        rw [← hcast] at this
        exact_mod_cast this
      · intro h
        have : (x : Int) = 2 ^ T.bits - 1 := by omega
        have h1 : (1 : Nat) ≤ 2 ^ T.bits := Nat.one_le_two_pow
        have : (x : Int) = ((2 ^ T.bits - 1 : Nat) : Int) := by
          rw [this]; push_cast [h1]; rfl
        exact_mod_cast this
    · have hci : (x : Int) < (2 ^ (T.bits - 1) : Int) := by
        rw [← hcast]; exact_mod_cast (Nat.lt_of_not_le hc)
      simp only [hc, if_false]
      refine ⟨⟨by omega, by omega⟩, ?_, ?_, ?_⟩
      · intro h; exact_mod_cast h
      · intro h; omega
      · intro h; omega

theorem div_inRange (T : IntType) (x y : Nat) (hT : 0 < T.bits)
    (hx : x < 2 ^ T.bits) (hy : y < 2 ^ T.bits) (hy0 : y ≠ 0)
    (hmin : ¬ (T.isSigned = true ∧ x = 2 ^ (T.bits - 1) ∧ y = 2 ^ T.bits - 1)) :
    inRange T (Int.tdiv (toInt T x) (toInt T y)) = true := by
  obtain ⟨ux, sx, _, mx, _⟩ := toInt_bounds T x hT hx
  obtain ⟨uy, sy, zy, _, my⟩ := toInt_bounds T y hT hy
  have hY : toInt T y ≠ 0 := fun h => hy0 (zy h)
  have habs : (Int.tdiv (toInt T x) (toInt T y)).natAbs ≤ (toInt T x).natAbs := by
    rw [Int.natAbs_tdiv]; exact Nat.div_le_self _ _
  unfold inRange
  cases hs : T.isSigned
  · simp only [Bool.false_eq_true, if_false, Bool.and_eq_true, decide_eq_true_eq]
    rw [ux hs, uy hs]
    constructor
    · exact Int.tdiv_nonneg (by positivity) (by positivity)
    · rw [← Int.ofNat_tdiv]
      have : x / y < 2 ^ T.bits := lt_of_le_of_lt (Nat.div_le_self _ _) hx
      exact_mod_cast this
  · simp only [if_true, Bool.and_eq_true, decide_eq_true_eq]
    obtain ⟨hx1, hx2⟩ := sx hs
    have hXabs : (toInt T x).natAbs ≤ 2 ^ (T.bits - 1) := by
      have : ((toInt T x).natAbs : Int) ≤ ((2 ^ (T.bits - 1) : Nat) : Int) := by
        push_cast; rw [abs_le]; constructor <;> omega
      exact_mod_cast this
    have hq : ((Int.tdiv (toInt T x) (toInt T y)).natAbs : Int) ≤ 2 ^ (T.bits - 1) := by
      have : (Int.tdiv (toInt T x) (toInt T y)).natAbs ≤ 2 ^ (T.bits - 1) := le_trans habs hXabs
      exact_mod_cast this
    rw [← Int.abs_eq_natAbs, abs_le] at hq
    refine ⟨hq.1, lt_of_le_of_ne hq.2 ?_⟩
    intro heq
    -- the quotient reaches 2 ^ (bits - 1) only for the least value divided by -1
    have hqa : (Int.tdiv (toInt T x) (toInt T y)).natAbs = 2 ^ (T.bits - 1) := by
      rw [heq]; simp [Int.natAbs_pow]
    have hXa : (toInt T x).natAbs = 2 ^ (T.bits - 1) := le_antisymm hXabs (hqa ▸ habs)
    have hXmin : toInt T x = -(2 ^ (T.bits - 1) : Int) := by
      rcases Int.natAbs_eq (toInt T x) with h | h
      · rw [hXa] at h; push_cast at h; omega
      · rw [hXa] at h; push_cast at h; exact h
    have hdiv : (toInt T x).natAbs / (toInt T y).natAbs = (toInt T x).natAbs := by
      have := Int.natAbs_tdiv (toInt T x) (toInt T y)
      rw [hqa, ← hXa] at this
      exact this.symm
    have hpos : 0 < 2 ^ (T.bits - 1) := Nat.two_pow_pos _
    have hYa : (toInt T y).natAbs = 1 := by
      rcases Nat.div_eq_self.mp hdiv with h | h
      · omega
      · exact h
    rcases Int.natAbs_eq_iff.mp hYa with h | h
    · rw [h] at heq
      simp only [Nat.cast_one, Int.tdiv_one] at heq
      have : (0 : Int) < 2 ^ (T.bits - 1) := by positivity
      omega
    · exact hmin ⟨hs, mx hs hXmin, my hs (by simpa using h)⟩

theorem zipWith_any_false (f : Nat → Nat → Bool) (xs ys : List Nat)
    (h : ∀ (i x y : Nat), xs[i]? = some x → ys[i]? = some y → f x y = false) :
    (List.zipWith f xs ys).any id = false := by
  induction xs generalizing ys with
  | nil => simp
  | cons x xs ih =>
    cases ys with
    | nil => simp
    | cons y ys =>
      simp only [List.zipWith_cons_cons, List.any_cons, id_eq, Bool.or_eq_false_iff]
      exact ⟨h 0 x y List.getElem?_cons_zero List.getElem?_cons_zero,
        ih ys (fun i a b ha hb => h (i + 1) a b
          (List.getElem?_cons_succ.trans ha) (List.getElem?_cons_succ.trans hb))⟩

/-- C13: for tensors `a` and `b` of equal shape in which no element of `b` is
zero and, for signed `T`, no pair is the least value divided by `-1`, `div`
succeeds and element `i` of the result denotes the quotient of the values
denoted by `a[i]` and `b[i]`, truncated toward zero; the scaling factors play no
part, and the destination keeps its own. -/
theorem div_raw_quotient (T : IntType) (a b dst : PaddleTensor) (hT : 0 < T.bits)
    (hdims : a.tensor.dims = b.tensor.dims) (wa : a.tensor.WF T) (wb : b.tensor.WF T)
    (hnz : ∀ (i x y : Nat), a.tensor.data[i]? = some x → b.tensor.data[i]? = some y →
      y ≠ 0 ∧ ¬ (T.isSigned = true ∧ x = 2 ^ (T.bits - 1) ∧ y = 2 ^ T.bits - 1)) :
    ∃ r, div T a b dst = Except.ok r ∧ r.tensor.dims = dst.tensor.dims ∧
      r.scaling_factor = dst.scaling_factor ∧
      ∀ (i x y : Nat), a.tensor.data[i]? = some x → b.tensor.data[i]? = some y →
        i < dst.tensor.data.length →
        ∃ q, r.tensor.data[i]? = some q ∧
          toInt T q = Int.tdiv (toInt T x) (toInt T y) := by
  have he : a.tensor.elems = a.tensor.data := elems_of_length _ wa.1
  have hnf : (List.zipWith (divFaults T) a.tensor.elems b.tensor.data).any id = false := by
    rw [he]
    apply zipWith_any_false
    intro i x y hx hy
    obtain ⟨h0, hm⟩ := hnz i x y hx hy
    unfold divFaults
    simp only [Bool.or_eq_false_iff, decide_eq_false_iff_not, Bool.and_eq_false_iff]
    refine ⟨h0, ?_⟩
    by_contra hc
    push_neg at hc
    simp only [ne_eq, Bool.not_eq_false, decide_eq_true_eq, Bool.and_eq_true] at hc
    exact hm ⟨hc.1.1.1, hc.1.2, hc.2⟩
  refine ⟨dst.withData (storeAt dst.tensor.data 0
    (List.zipWith (divT T) a.tensor.elems b.tensor.data)), ?_, rfl, rfl, ?_⟩
  · unfold div
    rw [if_neg (by simpa using hdims), hnf]
    simp
  · intro i x y hx hy hi
    have hxl : i < a.tensor.data.length := by
      by_contra hc
      rw [List.getElem?_eq_none_iff.mpr (by omega)] at hx
      exact Option.noConfusion hx
    have hyl : i < b.tensor.data.length := by
      by_contra hc
      rw [List.getElem?_eq_none_iff.mpr (by omega)] at hy
      exact Option.noConfusion hy
    have hxT : x < 2 ^ T.bits := wa.2 x (List.getElem?_mem hx)
    have hyT : y < 2 ^ T.bits := wb.2 y (List.getElem?_mem hy)
    obtain ⟨h0, hm⟩ := hnz i x y hx hy
    refine ⟨divT T x y, ?_, ?_⟩
    · show (storeAt dst.tensor.data 0 (List.zipWith (divT T) a.tensor.elems b.tensor.data))[i]? = _
      rw [storeAt_getElem?, if_pos hi, he]
      have hlen : i < 0 + (List.zipWith (divT T) a.tensor.data b.tensor.data).length := by
        rw [List.length_zipWith]; omega
      rw [if_pos ⟨Nat.zero_le _, hlen⟩, Nat.sub_zero, List.getElem?_zipWith, hx, hy]
    · unfold divT
      exact toInt_ofInt T _ hT (div_inRange T x y hT hxT hyT h0 hm)


/-- The claim C13 on the raw encodings of `6.0` and `2.0` at scaling factor 16. -/
theorem div_raw_quotient_witness :
    ∃ r, div int64 exSix exTwo exOne = Except.ok r ∧ r.tensor.dims = exOne.tensor.dims ∧
      r.scaling_factor = exOne.scaling_factor ∧
      ∀ (i x y : Nat), exSix.tensor.data[i]? = some x → exTwo.tensor.data[i]? = some y →
        i < exOne.tensor.data.length →
        ∃ q, r.tensor.data[i]? = some q ∧
          toInt int64 q = Int.tdiv (toInt int64 x) (toInt int64 y) :=
  div_raw_quotient int64 exSix exTwo exOne (by decide) rfl ⟨rfl, by decide⟩ ⟨rfl, by decide⟩
    (by
      intro i x y hx hy
      have hy2 : y = 131072 := by
        cases i with
        | zero => simpa [exTwo] using hy.symm
        | succ j => simp [exTwo] at hy
      subst hy2
      exact ⟨by decide, fun h => absurd h.2.2 (by decide)⟩)

/-- The encodings of `6.0` and `2.0` at scaling factor 16 divide to the raw
word 3, not to 196608, the encoding of `3.0`. -/
theorem div_example :
    div int64 exSix exTwo exOne = Except.ok
      { tensor := { dims := [1], data := [3], place := 0 }, ctx_place := 0,
        scaling_factor := 16 } := by
  rfl

/-! ## What the operations leave alone -/

/-- Replacing the storage by as many words keeps the frame. -/
theorem withData_sameFrame (ret : PaddleTensor) (d : List Nat)
    (h : d.length = ret.tensor.data.length) : SameFrame ret (ret.withData d) :=
  ⟨rfl, rfl, rfl, rfl, h⟩

/-- Frame of `add`. -/
theorem add_frame (T : IntType) (self rhs ret r : PaddleTensor)
    (h : add T self rhs ret = Except.ok r) : SameFrame ret r := by
  unfold add at h
  split at h
  · exact Except.noConfusion h
  · injection h with h; subst h
    exact withData_sameFrame _ _ (storeAt_length _ _ _)

/-- Frame of `sub`. -/
theorem sub_frame (T : IntType) (self rhs ret r : PaddleTensor)
    (h : sub T self rhs ret = Except.ok r) : SameFrame ret r := by
  unfold sub at h
  split at h
  · exact Except.noConfusion h
  · injection h with h; subst h
    exact withData_sameFrame _ _ (storeAt_length _ _ _)

/-- Frame of `mul`. -/
theorem mul_frame (T : IntType) (self rhs ret r : PaddleTensor)
    (h : mul T self rhs ret = Except.ok r) : SameFrame ret r := by
  unfold mul at h
  split at h
  · exact Except.noConfusion h
  · injection h with h; subst h
    exact withData_sameFrame _ _ (storeAt_length _ _ _)

/-- Frame of `div`. -/
theorem div_frame (T : IntType) (self rhs ret r : PaddleTensor)
    (h : div T self rhs ret = Except.ok r) : SameFrame ret r := by
  unfold div at h
  split at h
  · exact Except.noConfusion h
  · split at h
    · exact Except.noConfusion h
    · injection h with h; subst h
      exact withData_sameFrame _ _ (storeAt_length _ _ _)

/-- Frame of `bitwise_and`. -/
theorem bitwise_and_frame (self rhs ret r : PaddleTensor)
    (h : bitwise_and self rhs ret = Except.ok r) : SameFrame ret r := by
  unfold bitwise_and at h
  split at h
  · exact Except.noConfusion h
  · injection h with h; subst h
    exact withData_sameFrame _ _ (storeAt_length _ _ _)

/-- Frame of `bitwise_or`. -/
theorem bitwise_or_frame (self rhs ret r : PaddleTensor)
    (h : bitwise_or self rhs ret = Except.ok r) : SameFrame ret r := by
  unfold bitwise_or at h
  split at h
  · exact Except.noConfusion h
  · injection h with h; subst h
    exact withData_sameFrame _ _ (storeAt_length _ _ _)

/-- Frame of `bitwise_xor`. -/
theorem bitwise_xor_frame (self rhs ret r : PaddleTensor)
    (h : bitwise_xor self rhs ret = Except.ok r) : SameFrame ret r := by
  unfold bitwise_xor at h
  split at h
  · exact Except.noConfusion h
  · injection h with h; subst h
    exact withData_sameFrame _ _ (storeAt_length _ _ _)

/-- Frame of `mat_mul`. -/
theorem mat_mul_frame (T : IntType) (self rhs ret r : PaddleTensor) (tl tr : Bool)
    (h : mat_mul T self rhs ret tl tr = Except.ok r) : SameFrame ret r := by
  unfold mat_mul at h
  simp only [] at h
  split_ifs at h
  · injection h with h; subst h
    exact withData_sameFrame _ _ (storeAt_length _ _ _)
  · injection h with h; subst h
    exact withData_sameFrame _ _ (foldl_storeAt_length _ _ _ _)

/-- A destination that keeps its frame keeps one stored word per element. -/
theorem sameFrame_numel (ret r : PaddleTensor) (h : SameFrame ret r)
    (hret : ret.tensor.data.length = ret.tensor.numel) :
    r.tensor.data.length = r.tensor.numel := by
  obtain ⟨hd, _, _, _, hl⟩ := h
  unfold Tensor.numel at *
  rw [hl, hd, hret]

/-- A slice of a tensor with one stored word per element has one per element. -/
theorem slice_numel (self ret r : PaddleTensor) (b e : Nat)
    (hself : self.tensor.data.length = self.tensor.numel)
    (h : slice self b e ret = Except.ok r) : r.tensor.data.length = r.tensor.numel := by
  unfold slice Tensor.Slice at h
  split at h
  · exact Except.noConfusion h
  · rename_i t ht
    split at ht
    · exact Except.noConfusion ht
    · rename_i hc
      injection ht with ht
      injection h with h
      subst h; subst ht
      unfold Tensor.numel at *
      simp only [List.prod_cons, List.length_take, List.length_drop]
      cases hdims : self.tensor.dims with
      | nil =>
        rw [hdims] at hc
        simp only [List.getD_nil, not_or, not_lt, Nat.le_zero_eq] at hc
        obtain ⟨h1, h2⟩ := hc
        subst h2
        simp
      | cons L rest =>
        rw [hdims] at hc hself
        simp only [List.getD_cons_zero, not_or, not_lt] at hc
        simp only [List.tail_cons, List.prod_cons] at hself ⊢
        rw [hself]
        obtain ⟨h1, h2⟩ := hc
        have e1 : (e - b) * rest.prod + b * rest.prod = e * rest.prod := by
          rw [← Nat.add_mul]; congr 1; omega
        have e2 : e * rest.prod ≤ L * rest.prod := Nat.mul_le_mul_right _ h2
        omega

/-- C14: the predicate "number of stored elements = product of the dimensions"
is kept by every operation of the file: `reshape` gives the tensor the shape
asked for with that many elements, the two conversions and `slice` produce
tensors satisfying it, and every elementwise, bitwise, shift and `mat_mul`
call leaves a destination that satisfied it satisfying it (receiver and
operands are only read). -/
theorem numel_invariant (T : IntType) (P : Platform) (mem : Nat → Nat)
    (self rhs ret : PaddleTensor) (src : FloatTensor) (scalar : FP) (shape : List Nat)
    (n s b e : Nat) (tl tr : Bool)
    (hself : self.tensor.data.length = self.tensor.numel)
    (hret : ret.tensor.data.length = ret.tensor.numel) :
    ((reshape T mem self shape).tensor.dims = shape ∧
      (reshape T mem self shape).tensor.data.length = shape.prod ∧
      (reshape T mem self shape).tensor.data.length = (reshape T mem self shape).tensor.numel) ∧
    (∀ r, add T self rhs ret = Except.ok r → r.tensor.data.length = r.tensor.numel) ∧
    (∀ r, sub T self rhs ret = Except.ok r → r.tensor.data.length = r.tensor.numel) ∧
    (∀ r, mul T self rhs ret = Except.ok r → r.tensor.data.length = r.tensor.numel) ∧
    (∀ r, div T self rhs ret = Except.ok r → r.tensor.data.length = r.tensor.numel) ∧
    (negative T self ret).tensor.data.length = (negative T self ret).tensor.numel ∧
    (∀ r, bitwise_and self rhs ret = Except.ok r → r.tensor.data.length = r.tensor.numel) ∧
    (∀ r, bitwise_or self rhs ret = Except.ok r → r.tensor.data.length = r.tensor.numel) ∧
    (bitwise_not T self ret).tensor.data.length = (bitwise_not T self ret).tensor.numel ∧
    (∀ r, bitwise_xor self rhs ret = Except.ok r → r.tensor.data.length = r.tensor.numel) ∧
    (lshift T P n self ret).tensor.data.length = (lshift T P n self ret).tensor.numel ∧
    (rshift T P n self ret).tensor.data.length = (rshift T P n self ret).tensor.numel ∧
    (logical_rshift T P n self ret).tensor.data.length =
      (logical_rshift T P n self ret).tensor.numel ∧
    (∀ r, mat_mul T self rhs ret tl tr = Except.ok r →
      r.tensor.data.length = r.tensor.numel) ∧
    (from_float_point_type T P mem self src s).tensor.data.length =
      (from_float_point_type T P mem self src s).tensor.numel ∧
    (from_float_point_scalar T P mem self scalar shape s).tensor.data.length =
      (from_float_point_scalar T P mem self scalar shape s).tensor.numel ∧
    (∀ r, slice self b e ret = Except.ok r → r.tensor.data.length = r.tensor.numel) := by
  have hw : ∀ d : List Nat, d.length = ret.tensor.data.length →
      (ret.withData d).tensor.data.length = (ret.withData d).tensor.numel := fun d hd =>
    sameFrame_numel ret _ (withData_sameFrame ret d hd) hret
  refine ⟨⟨rfl, ?_, ?_⟩, ?_, ?_, ?_, ?_, ?_, ?_, ?_, ?_, ?_, ?_, ?_, ?_, ?_, ?_, ?_, ?_⟩
  · simp [reshape, mutable_data]
  · simp [reshape, mutable_data, Tensor.numel]
  · exact fun r h => sameFrame_numel ret r (add_frame T self rhs ret r h) hret
  · exact fun r h => sameFrame_numel ret r (sub_frame T self rhs ret r h) hret
  · exact fun r h => sameFrame_numel ret r (mul_frame T self rhs ret r h) hret
  · exact fun r h => sameFrame_numel ret r (div_frame T self rhs ret r h) hret
  · exact hw _ (storeAt_length _ _ _)
  · exact fun r h => sameFrame_numel ret r (bitwise_and_frame self rhs ret r h) hret
  · exact fun r h => sameFrame_numel ret r (bitwise_or_frame self rhs ret r h) hret
  · exact hw _ (storeAt_length _ _ _)
  · exact fun r h => sameFrame_numel ret r (bitwise_xor_frame self rhs ret r h) hret
  · exact hw _ (storeAt_length _ _ _)
  · exact hw _ (storeAt_length _ _ _)
  · exact hw _ (storeAt_length _ _ _)
  · exact fun r h => sameFrame_numel ret r (mat_mul_frame T self rhs ret r tl tr h) hret
  · show (storeAt _ 0 _).length = _
    rw [storeAt_length]
    simp only [mutable_data, List.length_map, List.length_range]
    rfl
  · show (storeAt _ 0 _).length = _
    rw [storeAt_length]
    simp only [reshape, mutable_data, List.length_map, List.length_range]
    rfl
  · exact fun r h => slice_numel self ret r b e hself h

/-- The claim C14 on `reshape` to `[2, 2]` and on an `add` into a destination of two words. -/
theorem numel_invariant_witness :
    ((reshape int64 (fun i => i) exThree [2, 2]).tensor.dims = [2, 2] ∧
      (reshape int64 (fun i => i) exThree [2, 2]).tensor.data.length = [2, 2].prod ∧
      (reshape int64 (fun i => i) exThree [2, 2]).tensor.data.length =
        (reshape int64 (fun i => i) exThree [2, 2]).tensor.numel) ∧
    (∀ r, add int64 exThree exWords exWordsDst = Except.ok r →
      r.tensor.data.length = r.tensor.numel) :=
  ⟨(numel_invariant int64 x86_64 (fun i => i) exThree exWords exWordsDst exFloats
      (FP.finite 3 (-1)) [2, 2] 3 16 1 2 false false rfl rfl).1,
   (numel_invariant int64 x86_64 (fun i => i) exThree exWords exWordsDst exFloats
      (FP.finite 3 (-1)) [2, 2] 3 16 1 2 false false rfl rfl).2.1⟩

/-- C15: `reshape` keeps the tensor's scaling factor; every elementwise,
bitwise, shift and `mat_mul` call leaves the destination with the scaling
factor it had (not that of a source; receiver and right operand are only
read); `slice` gives the destination the source's scaling factor and the two
conversions record the one given. -/
theorem scaling_factor_frame (T : IntType) (P : Platform) (mem : Nat → Nat)
    (self rhs ret : PaddleTensor) (src : FloatTensor) (scalar : FP) (shape : List Nat)
    (n s b e : Nat) (tl tr : Bool) :
    (reshape T mem self shape).scaling_factor = self.scaling_factor ∧
    (∀ r, add T self rhs ret = Except.ok r → r.scaling_factor = ret.scaling_factor) ∧
    (∀ r, sub T self rhs ret = Except.ok r → r.scaling_factor = ret.scaling_factor) ∧
    (∀ r, mul T self rhs ret = Except.ok r → r.scaling_factor = ret.scaling_factor) ∧
    (∀ r, div T self rhs ret = Except.ok r → r.scaling_factor = ret.scaling_factor) ∧
    (negative T self ret).scaling_factor = ret.scaling_factor ∧
    (∀ r, bitwise_and self rhs ret = Except.ok r → r.scaling_factor = ret.scaling_factor) ∧
    (∀ r, bitwise_or self rhs ret = Except.ok r → r.scaling_factor = ret.scaling_factor) ∧
    (bitwise_not T self ret).scaling_factor = ret.scaling_factor ∧
    (∀ r, bitwise_xor self rhs ret = Except.ok r → r.scaling_factor = ret.scaling_factor) ∧
    (lshift T P n self ret).scaling_factor = ret.scaling_factor ∧
    (rshift T P n self ret).scaling_factor = ret.scaling_factor ∧
    (logical_rshift T P n self ret).scaling_factor = ret.scaling_factor ∧
    (∀ r, mat_mul T self rhs ret tl tr = Except.ok r →
      r.scaling_factor = ret.scaling_factor) ∧
    (∀ r, slice self b e ret = Except.ok r → r.scaling_factor = self.scaling_factor) ∧
    (from_float_point_type T P mem self src s).scaling_factor = s ∧
    (from_float_point_scalar T P mem self scalar shape s).scaling_factor = s := by
  refine ⟨rfl, ?_, ?_, ?_, ?_, rfl, ?_, ?_, rfl, ?_, rfl, rfl, rfl, ?_, ?_, rfl, rfl⟩
  · exact fun r h => (add_frame T self rhs ret r h).2.2.2.1
  · exact fun r h => (sub_frame T self rhs ret r h).2.2.2.1
  · exact fun r h => (mul_frame T self rhs ret r h).2.2.2.1
  · exact fun r h => (div_frame T self rhs ret r h).2.2.2.1
  · exact fun r h => (bitwise_and_frame self rhs ret r h).2.2.2.1
  · exact fun r h => (bitwise_or_frame self rhs ret r h).2.2.2.1
  · exact fun r h => (bitwise_xor_frame self rhs ret r h).2.2.2.1
  · exact fun r h => (mat_mul_frame T self rhs ret r tl tr h).2.2.2.1
  · intro r h
    unfold slice at h
    split at h
    · exact Except.noConfusion h
    · injection h with h; subst h; rfl

/-- The claim C15 on a `reshape` and on a product of two tensors of scaling
factor 16 written into a destination of scaling factor 0. -/
theorem scaling_factor_frame_witness :
    (reshape int64 (fun i => i) exSix [2, 2]).scaling_factor = exSix.scaling_factor ∧
    (∀ r, mul int64 exSix exTwo (mkTensor [1] [9]) = Except.ok r →
      r.scaling_factor = (mkTensor [1] [9]).scaling_factor) :=
  ⟨(scaling_factor_frame int64 x86_64 (fun i => i) exSix exTwo (mkTensor [1] [9]) exFloats
      (FP.finite 3 (-1)) [2, 2] 3 16 1 2 false false).1,
   (scaling_factor_frame int64 x86_64 (fun i => i) exSix exTwo (mkTensor [1] [9]) exFloats
      (FP.finite 3 (-1)) [2, 2] 3 16 1 2 false false).2.2.2.1⟩

/-- The claim C15 evaluated: a product of two tensors of scaling factor 16
written into a destination of scaling factor 0 leaves the destination at 0. -/
theorem scaling_factor_example :
    (mul int64 exSix exTwo (mkTensor [1] [9])).map (fun r => r.scaling_factor) =
      Except.ok 0 := by
  rfl

/-! ## The destination's shape -/

/-- A `mat_mul` call that passes the checks on placement, ranks, contracted
sizes and batch sizes succeeds, whatever the row and column counts of the
destination. -/
theorem mat_mul_accepts (T : IntType) (a b dst : PaddleTensor) (tl tr : Bool)
    (hpb : a.tensor.place = b.tensor.place) (hpd : a.tensor.place = dst.tensor.place)
    (hra : rankOk a.tensor) (hrb : rankOk b.tensor) (hrd : rankOk dst.tensor)
    (hrank : b.tensor.dims.length ≤ a.tensor.dims.length)
    (hc : contractedLhs a.tensor tl = contractedRhs b.tensor tr)
    (hb : batchOf b.tensor = batchOf a.tensor ∨ batchOf b.tensor = 1)
    (hd : batchOf dst.tensor = batchOf a.tensor) :
    ∃ r, mat_mul T a b dst tl tr = Except.ok r := by
  have hm : (is_matrix a.tensor && is_matrix b.tensor && is_matrix dst.tensor) = true := by
    simp only [Bool.and_eq_true, is_matrix_iff]
    exact ⟨⟨hra, hrb⟩, hrd⟩
  unfold mat_mul
  simp only []
  rw [if_neg (not_not.mpr ⟨hpb, hpd⟩), if_neg (not_not.mpr hm), if_neg (not_not.mpr hrank),
    const_view_contracted_lhs, const_view_contracted_rhs, if_neg (not_not.mpr hc),
    const_view_batch, const_view_batch, if_neg (not_not.mpr hb), out_view_batch,
    if_neg (not_not.mpr hd)]
  split
  · exact ⟨_, rfl⟩
  · exact ⟨_, rfl⟩

/-- C19, as amended: `mat_mul` accepts the operand ranks 2 x 2, 3 x 3 and 3 x 2
and no others.  A call with a rank-2 left and a rank-3 right operand fails,
whatever the sizes, the flags and the destination (no new state of the
destination is produced); a call that succeeds has one of the three rank pairs;
and a call with one of the three rank pairs that meets the placement,
contracted-size and batch-size preconditions succeeds, provided its destination
has rank 2 or 3, the row and column counts of the product and one stored word
per element. -/
theorem mat_mul_rank_configurations (T : IntType) (a b dst : PaddleTensor) (tl tr : Bool) :
    (a.tensor.dims.length = 2 → b.tensor.dims.length = 3 →
      ∃ e, mat_mul T a b dst tl tr = Except.error e) ∧
    (∀ r, mat_mul T a b dst tl tr = Except.ok r →
      (a.tensor.dims.length = 2 ∧ b.tensor.dims.length = 2) ∨
      (a.tensor.dims.length = 3 ∧ b.tensor.dims.length = 3) ∨
      (a.tensor.dims.length = 3 ∧ b.tensor.dims.length = 2)) ∧
    (((a.tensor.dims.length = 2 ∧ b.tensor.dims.length = 2) ∨
        (a.tensor.dims.length = 3 ∧ b.tensor.dims.length = 3) ∨
        (a.tensor.dims.length = 3 ∧ b.tensor.dims.length = 2)) →
      a.tensor.place = b.tensor.place → a.tensor.place = dst.tensor.place →
      rankOk dst.tensor →
      rowsOf dst.tensor = productRows a.tensor tl →
      colsOf dst.tensor = productCols b.tensor tr →
      dst.tensor.data.length = dst.tensor.numel →
      contractedLhs a.tensor tl = contractedRhs b.tensor tr →
      (batchOf b.tensor = batchOf a.tensor ∨ batchOf b.tensor = 1) →
      batchOf dst.tensor = batchOf a.tensor →
      ∃ r, mat_mul T a b dst tl tr = Except.ok r) := by
  refine ⟨?_, ?_, ?_⟩
  · intro ha hb
    unfold mat_mul
    simp only []
    split
    · exact ⟨_, rfl⟩
    · split
      · exact ⟨_, rfl⟩
      · rw [if_pos (by rw [ha, hb]; decide)]
        exact ⟨_, rfl⟩
  · intro r h
    unfold mat_mul at h
    simp only [] at h
    split at h
    · exact Except.noConfusion h
    · split at h
      · exact Except.noConfusion h
      · rename_i hm
        split at h
        · exact Except.noConfusion h
        · rename_i hr
          simp only [not_not, Bool.and_eq_true, is_matrix_iff, rankOk] at hm
          simp only [not_not, ge_iff_le] at hr
          obtain ⟨⟨h1, h2⟩, _⟩ := hm
          omega
  · intro hcfg hpb hpd hrd _ _ _ hc hb hd
    have hra : rankOk a.tensor := by unfold rankOk; omega
    have hrb : rankOk b.tensor := by unfold rankOk; omega
    exact mat_mul_accepts T a b dst tl tr hpb hpd hra hrb hrd (by omega) hc hb hd

/-- The claim C19 on a rank-2 left operand `[2, 3]` and a rank-3 right operand
`[1, 3, 4]` of batch size 1 with matching contracted size: the call fails. -/
theorem mat_mul_rank_configurations_example :
    mat_mul int64 exA (mkTensor [1, 3, 4] exB.tensor.data) exDst false false =
      Except.error Abort.dimsUnsupported := by
  rfl

/-- The amended claim C19 applied: the rank pair 2 x 3 is refused, and the pair
2 x 2 accepted into the `[2, 4]` destination of the product. -/
theorem mat_mul_rank_configurations_witness :
    (∃ e, mat_mul int64 exA (mkTensor [1, 3, 4] exB.tensor.data) exDst false false =
      Except.error e) ∧
    (∃ r, mat_mul int64 exA exB exDst false false = Except.ok r) :=
  ⟨(mat_mul_rank_configurations int64 exA (mkTensor [1, 3, 4] exB.tensor.data) exDst
      false false).1 rfl rfl,
   (mat_mul_rank_configurations int64 exA exB exDst false false).2.2
      (Or.inl ⟨rfl, rfl⟩) rfl rfl (Or.inl rfl) rfl rfl rfl rfl (Or.inl rfl) rfl⟩

/-- C19 as stated fails: the call on a `[2, 3]` and a `[3, 4]` matrix (rank pair
2 x 2, one placement, contracted sizes 3 and 3, batch sizes 1) into a rank-4
destination `[1, 1, 2, 4]`, whose leading dimension is the batch size 1 and
which holds the 8 words of the product, does not succeed: it is refused by the
check that the output is a matrix or a batched matrix. -/
theorem mat_mul_rank4_dst_counterexample :
    exA.tensor.dims.length = 2 ∧ exB.tensor.dims.length = 2 ∧
    exA.tensor.place = exB.tensor.place ∧ exA.tensor.place = exRank4.tensor.place ∧
    contractedLhs exA.tensor false = contractedRhs exB.tensor false ∧
    batchOf exB.tensor = batchOf exA.tensor ∧
    batchOf exRank4.tensor = batchOf exA.tensor ∧
    exRank4.tensor.dims.getD 0 0 = batchOf exA.tensor ∧
    exRank4.tensor.data.length = 8 ∧
    mat_mul int64 exA exB exRank4 false false = Except.error Abort.notMatrix := by
  refine ⟨rfl, rfl, rfl, rfl, by decide, by decide, by decide, by decide, by decide, ?_⟩
  rfl

/-! ## Arithmetic and logical right shift -/

/-- The raw word of `a >> n` for a shift amount below the word length: the
unsigned quotient, with the top `n` bits set when `T` is signed and the sign
bit of `a` is set. -/
theorem shrT_eq (T : IntType) (P : Platform) (x n : Nat) (hn : n < T.bits)
    (hx : x < 2 ^ T.bits) :
    shrT T P x n = x / 2 ^ n +
      (if T.isSigned = true ∧ 2 ^ (T.bits - 1) ≤ x then 2 ^ T.bits - 2 ^ (T.bits - n) else 0) := by
  have hsplit : 2 ^ T.bits = 2 ^ (T.bits - n) * 2 ^ n := by
    rw [← Nat.pow_add]; congr 1; omega
  have hq : x / 2 ^ n < 2 ^ (T.bits - n) := by
    apply Nat.div_lt_of_lt_mul
    rw [Nat.mul_comm, ← hsplit]; exact hx
  have hle : 2 ^ (T.bits - n) ≤ 2 ^ T.bits := Nat.pow_le_pow_right (by norm_num) (Nat.sub_le _ _)
  have hne : (2 ^ n : Int) ≠ 0 := by positivity
  unfold shrT
  rw [if_pos hn]
  unfold ofInt toInt
  apply Int.ofNat_inj.mp
  rw [Int.toNat_of_nonneg (Int.emod_nonneg _ (by positivity))]
  by_cases hc : T.isSigned = true ∧ 2 ^ (T.bits - 1) ≤ x
  · have hc2 : (T.isSigned && decide (2 ^ (T.bits - 1) ≤ x)) = true := by
      simp only [Bool.and_eq_true, decide_eq_true_eq]; exact hc
    rw [if_pos hc, if_pos hc2]
    have e : ((x : Int) - 2 ^ T.bits) = (x : Int) + (-(2 ^ (T.bits - n) : Int)) * 2 ^ n := by
      have : ((2 ^ T.bits : Nat) : Int) = ((2 ^ (T.bits - n) * 2 ^ n : Nat) : Int) := by
        rw [← hsplit]
      push_cast at this
      rw [this]; ring
    rw [e, Int.add_mul_ediv_right _ _ hne]
    have hqi : ((x : Int) / 2 ^ n) = ((x / 2 ^ n : Nat) : Int) := by push_cast; rfl
    rw [hqi, Int.emod_eq_add_self_emod]
    have hqz : ((x / 2 ^ n : Nat) : Int) < 2 ^ (T.bits - n) := by exact_mod_cast hq
    have hlez : (2 ^ (T.bits - n) : Int) ≤ 2 ^ T.bits := by exact_mod_cast hle
    have hq0 : (0 : Int) ≤ ((x / 2 ^ n : Nat) : Int) := by positivity
    rw [Int.emod_eq_of_lt (by omega) (by omega)]
    push_cast [hle]
    ring
  · have hc2 : ¬ (T.isSigned && decide (2 ^ (T.bits - 1) ≤ x)) = true := by
      simp only [Bool.and_eq_true, decide_eq_true_eq]; exact hc
    rw [if_neg hc, if_neg hc2, Nat.add_zero]
    have hqi : ((x : Int) / 2 ^ n) = ((x / 2 ^ n : Nat) : Int) := by push_cast; rfl
    rw [hqi]
    apply Int.emod_eq_of_lt (by positivity)
    have : x / 2 ^ n < 2 ^ T.bits := lt_of_lt_of_le hq hle
    exact_mod_cast this

/-- The value denoted by a word is negative exactly when `T` is signed and the sign bit is set. -/
theorem toInt_neg_iff (T : IntType) (x : Nat) (hx : x < 2 ^ T.bits) :
    toInt T x < 0 ↔ (T.isSigned = true ∧ 2 ^ (T.bits - 1) ≤ x) := by
  have hxi : (x : Int) < 2 ^ T.bits := by exact_mod_cast hx
  unfold toInt
  by_cases hc : T.isSigned = true ∧ 2 ^ (T.bits - 1) ≤ x
  · have hc2 : (T.isSigned && decide (2 ^ (T.bits - 1) ≤ x)) = true := by
      simp only [Bool.and_eq_true, decide_eq_true_eq]; exact hc
    rw [if_pos hc2]
    exact ⟨fun _ => hc, fun _ => by omega⟩
  · have hc2 : ¬ (T.isSigned && decide (2 ^ (T.bits - 1) ≤ x)) = true := by
      simp only [Bool.and_eq_true, decide_eq_true_eq]; exact hc
    rw [if_neg hc2]
    constructor
    · intro h
      have : (0 : Int) ≤ (x : Int) := by positivity
      omega
    · intro h; exact absurd h hc

/-- C20: for a shift amount `n` below the word length and an element `x`,
`rshift(n)` and `logical_rshift(n)` write the same word when `T` is unsigned;
when `T` is signed they write the same word exactly when `n = 0` or `x` is not
negative, and for negative `x` and `n > 0` the top `n` bits are ones in the
word of `rshift` and zeros in the word of `logical_rshift`. -/
theorem rshift_vs_logical_rshift (T : IntType) (P : Platform) (n : Nat)
    (self ret : PaddleTensor) (i x : Nat)
    (hT : T.bits < 2 ^ size_bits) (hn : n < T.bits)
    (hx : self.tensor.elems[i]? = some x) (hxT : x < 2 ^ T.bits)
    (hi : i < ret.tensor.data.length) :
    ∃ a l, (rshift T P n self ret).tensor.data[i]? = some a ∧
      (logical_rshift T P n self ret).tensor.data[i]? = some l ∧
      (T.isSigned = false → a = l) ∧
      (T.isSigned = true → (a = l ↔ (n = 0 ∨ 0 ≤ toInt T x))) ∧
      (T.isSigned = true → toInt T x < 0 → 0 < n →
        ∀ j, T.bits - n ≤ j → j < T.bits → a.testBit j = true ∧ l.testBit j = false) := by
  have hlen : i < self.tensor.elems.length := by
    by_contra hc
    rw [List.getElem?_eq_none_iff.mpr (by omega)] at hx
    exact Option.noConfusion hx
  have hsplit : 2 ^ T.bits = 2 ^ (T.bits - n) * 2 ^ n := by
    rw [← Nat.pow_add]; congr 1; omega
  have hq : x / 2 ^ n < 2 ^ (T.bits - n) := by
    apply Nat.div_lt_of_lt_mul
    rw [Nat.mul_comm, ← hsplit]; exact hxT
  have hpn : 1 ≤ 2 ^ n := Nat.one_le_two_pow
  have hfill : 2 ^ T.bits - 2 ^ (T.bits - n) = 2 ^ (T.bits - n) * (2 ^ n - 1) := by
    rw [Nat.mul_sub, Nat.mul_one, ← hsplit]
  have hfill0 : 2 ^ T.bits - 2 ^ (T.bits - n) = 0 ↔ n = 0 := by
    constructor
    · intro h
      by_contra hn0
      have : 2 ^ (T.bits - n) < 2 ^ T.bits := Nat.pow_lt_pow_right (by norm_num) (by omega)
      omega
    · intro h; subst h; simp
  refine ⟨shrT T P x n, x / 2 ^ n, ?_, ?_, ?_, ?_, ?_⟩
  · show (storeAt ret.tensor.data 0 (self.tensor.elems.map (fun a => shrT T P a n)))[i]? = _
    rw [storeAt_zero_map _ _ _ _ hi, if_pos hlen, hx, Option.map_some']
  · show (storeAt ret.tensor.data 0 (self.tensor.elems.map (logical_rshift_functor T P n)))[i]? = _
    rw [storeAt_zero_map _ _ _ _ hi, if_pos hlen, hx, Option.map_some',
      logical_rshift_functor_eq T P n x hT hn hxT]
  · intro hs
    rw [shrT_eq T P x n hn hxT, if_neg (fun h => by rw [hs] at h; exact Bool.noConfusion h.1),
      Nat.add_zero]
  · intro hs
    rw [shrT_eq T P x n hn hxT]
    have hneg := toInt_neg_iff T x hxT
    by_cases hc : T.isSigned = true ∧ 2 ^ (T.bits - 1) ≤ x
    · rw [if_pos hc]
      have hlt : toInt T x < 0 := hneg.mpr hc
      constructor
      · intro h
        exact Or.inl (hfill0.mp (by omega))
      · intro h
        rcases h with h | h
        · rw [hfill0.mpr h]; rfl
        · omega
    · rw [if_neg hc, Nat.add_zero]
      have hge : 0 ≤ toInt T x := by
        by_contra hlt
        exact hc (hneg.mp (by omega))
      exact ⟨fun _ => Or.inr hge, fun _ => rfl⟩
  · intro hs hlt hn0 j hj1 hj2
    have hc := (toInt_neg_iff T x hxT).mp hlt
    constructor
    · rw [shrT_eq T P x n hn hxT, if_pos hc, hfill, Nat.add_comm,
        Nat.testBit_mul_pow_two_add _ hq, if_neg (by omega), Nat.testBit_two_pow_sub_one]
      simp only [decide_eq_true_eq]
      omega
    · apply Nat.testBit_lt_two_pow
      exact lt_of_lt_of_le hq (Nat.pow_le_pow_right (by norm_num) hj1)

/-- The claim C20 on the `int64_t` value `-8` shifted by 3. -/
theorem rshift_vs_logical_rshift_witness :
    ∃ a l, (rshift int64 x86_64 3 exWords exWordsDst).tensor.data[0]? = some a ∧
      (logical_rshift int64 x86_64 3 exWords exWordsDst).tensor.data[0]? = some l ∧
      (int64.isSigned = false → a = l) ∧
      (int64.isSigned = true → (a = l ↔ (3 = 0 ∨ 0 ≤ toInt int64 (2 ^ 64 - 8)))) ∧
      (int64.isSigned = true → toInt int64 (2 ^ 64 - 8) < 0 → 0 < 3 →
        ∀ j, int64.bits - 3 ≤ j → j < int64.bits → a.testBit j = true ∧ l.testBit j = false) :=
  rshift_vs_logical_rshift int64 x86_64 3 exWords exWordsDst 0 (2 ^ 64 - 8)
    (by decide) (by decide) (by decide) (by decide) (by decide)

/-- The two shifts of `-8` and `17` by 3 on `int64_t`: `-1` and `2` against
`2 ^ 61 - 1` and `2`. -/
theorem rshift_example :
    (rshift int64 x86_64 3 exWords exWordsDst).tensor.data = [2 ^ 64 - 1, 2] ∧
    (logical_rshift int64 x86_64 3 exWords exWordsDst).tensor.data = [2 ^ 61 - 1, 2] := by
  decide

/-! ## The contracted axes -/

/-- Dimensions 1 and 3 of the rank-4 destination view are its row and column counts. -/
theorem out_view_rows_cols (t : Tensor) :
    (to_eigen_tensor t).getD 1 0 = rowsOf t ∧ (to_eigen_tensor t).getD 3 0 = colsOf t := by
  unfold to_eigen_tensor rowsOf colsOf
  split <;> simp

/-- What a successful `mat_mul` call has checked and stored. -/
theorem mat_mul_ok_inv (T : IntType) (a b dst r : PaddleTensor) (tl tr : Bool)
    (h : mat_mul T a b dst tl tr = Except.ok r) :
    rankOk a.tensor ∧ rankOk b.tensor ∧ rankOk dst.tensor ∧
    contractedLhs a.tensor tl = contractedRhs b.tensor tr ∧
    (batchOf b.tensor = batchOf a.tensor ∨ batchOf b.tensor = 1) ∧
    batchOf dst.tensor = batchOf a.tensor ∧
    r.tensor.data =
      (if batchOf b.tensor = 1 then
        storeAt dst.tensor.data 0
          (contract T [batchOf a.tensor, rowsOf a.tensor, colsOf a.tensor] a.tensor.data
            [batchOf b.tensor, rowsOf b.tensor, colsOf b.tensor] b.tensor.data
            (2 - tl.toNat) (1 + tr.toNat))
      else
        (List.range (batchOf a.tensor)).foldl
          (fun buf i => storeAt buf (i * rowsOf dst.tensor * colsOf dst.tensor)
            (contract T [rowsOf a.tensor, colsOf a.tensor]
              (chip0 [batchOf a.tensor, rowsOf a.tensor, colsOf a.tensor] a.tensor.data i)
              [rowsOf b.tensor, colsOf b.tensor]
              (chip0 [batchOf b.tensor, rowsOf b.tensor, colsOf b.tensor] b.tensor.data i)
              (1 - tl.toNat) (0 + tr.toNat)))
          dst.tensor.data) := by
  unfold mat_mul at h
  simp only [] at h
  split at h
  · exact Except.noConfusion h
  · split at h
    · exact Except.noConfusion h
    · rename_i hm
      simp only [not_not, Bool.and_eq_true, is_matrix_iff] at hm
      obtain ⟨⟨hra, hrb⟩, hrd⟩ := hm
      split at h
      · exact Except.noConfusion h
      · rw [const_view_contracted_lhs, const_view_contracted_rhs, const_view_batch,
          const_view_batch, out_view_batch, (out_view_rows_cols dst.tensor).1,
          (out_view_rows_cols dst.tensor).2, const_view_of_rankOk _ hra,
          const_view_of_rankOk _ hrb] at h
        split at h
        · exact Except.noConfusion h
        · rename_i hc
          split at h
          · exact Except.noConfusion h
          · rename_i hb
            split at h
            · exact Except.noConfusion h
            · rename_i hd
              refine ⟨hra, hrb, hrd, not_not.mp hc, not_not.mp hb, not_not.mp hd, ?_⟩
              split at h
              · rename_i h1
                injection h with h; subst h
                rw [if_pos h1]; rfl
              · rename_i h1
                injection h with h; subst h
                rw [if_neg h1]; rfl

/-- Coefficient of a contraction whose free dimensions are `[B, M]` on the
left and `[1, N]` on the right. -/
theorem contract_getElem_shared (T : IntType) (da a db b : List Nat) (p q B M N : Nat)
    (hfa : da.eraseIdx p = [B, M]) (hfb : db.eraseIdx q = [1, N]) (i x y : Nat)
    (hi : i < B) (hx : x < M) (hy : y < N) :
    (contract T da a db b p q)[(i * M + x) * N + y]? =
      some ((((List.range (da.getD p 0)).map fun t =>
        coeff da a (insertAt [i, x] p t) * coeff db b (insertAt [0, y] q t)).sum)
          % 2 ^ T.bits) := by
  have hN : 0 < N := by omega
  have hM : 0 < M := by omega
  have hlin : (i * M + x) * N + y < B * M * (1 * N) := by
    rw [Nat.one_mul]
    exact lin_lt (B * M) N _ _ (lin_lt B M i x hi hx) hy
  have e1 : ((i * M + x) * N + y) / N = i * M + x := by
    rw [Nat.add_comm, Nat.add_mul_div_right _ _ hN, Nat.div_eq_of_lt hy, Nat.zero_add]
  have e2 : ((i * M + x) * N + y) % N = y := by
    rw [Nat.add_comm, Nat.add_mul_mod_self_right, Nat.mod_eq_of_lt hy]
  have e3 : (i * M + x) / M = i := by
    rw [Nat.add_comm, Nat.add_mul_div_right _ _ hM, Nat.div_eq_of_lt hx, Nat.zero_add]
  have e4 : (i * M + x) % M = x := by
    rw [Nat.add_comm, Nat.add_mul_mod_self_right, Nat.mod_eq_of_lt hx]
  have e5 : y / N = 0 := Nat.div_eq_of_lt hy
  have e6 : y % N = y := Nat.mod_eq_of_lt hy
  rw [contract_eq, hfa, hfb]
  simp only [List.prod_cons, List.prod_nil, Nat.mul_one]
  rw [List.getElem?_map, List.getElem?_range hlin]
  simp only [Option.map_some', Nat.one_mul, unravel, List.prod_cons, List.prod_nil,
    Nat.mul_one, Nat.div_one, e1, e2, e3, e4, e5, e6]

/-- Coefficient of a contraction whose free dimensions are `[M]` on the left
and `[N]` on the right. -/
theorem contract_getElem_each (T : IntType) (da a db b : List Nat) (p q M N : Nat)
    (hfa : da.eraseIdx p = [M]) (hfb : db.eraseIdx q = [N]) (x y : Nat)
    (hx : x < M) (hy : y < N) :
    (contract T da a db b p q)[x * N + y]? =
      some ((((List.range (da.getD p 0)).map fun t =>
        coeff da a (insertAt [x] p t) * coeff db b (insertAt [y] q t)).sum)
          % 2 ^ T.bits) := by
  have hN : 0 < N := by omega
  have e1 : (x * N + y) / N = x := by
    rw [Nat.add_comm, Nat.add_mul_div_right _ _ hN, Nat.div_eq_of_lt hy, Nat.zero_add]
  have e2 : (x * N + y) % N = y := by
    rw [Nat.add_comm, Nat.add_mul_mod_self_right, Nat.mod_eq_of_lt hy]
  rw [contract_eq, hfa, hfb]
  simp only [List.prod_cons, List.prod_nil, Nat.mul_one]
  rw [List.getElem?_map, List.getElem?_range (lin_lt M N x y hx hy)]
  simp only [Option.map_some', unravel, List.prod_nil, Nat.div_one, e1, e2]

/-- Number of coefficients of a contraction. -/
theorem contract_length (T : IntType) (da a db b : List Nat) (p q : Nat) :
    (contract T da a db b p q).length = (da.eraseIdx p).prod * (db.eraseIdx q).prod := by
  rw [contract_eq]; simp

/-- A coefficient of chip `i` is the coefficient of the batch at batch index `i`. -/
theorem coeff_chip0 (B r c : Nat) (a : List Nat) (i u v : Nat) (hu : u < r) (hv : v < c) :
    coeff [r, c] (chip0 [B, r, c] a i) [u, v] = coeff [B, r, c] a [i, u, v] := by
  unfold coeff chip0
  simp only [ravel, List.tail_cons, List.prod_cons, List.prod_nil, Nat.mul_one, Nat.add_zero]
  rw [getD_take_drop _ _ _ _ (lin_lt r c u v hu hv)]

/-- The contracted axis of the left view, the free dimensions it leaves, and
the same for a chip. -/
theorem lhs_axis_facts (tl : Bool) (B ra ca : Nat) :
    (if tl then 1 else 2) = 2 - tl.toNat ∧
    [B, ra, ca].eraseIdx (2 - tl.toNat) = [B, if tl then ca else ra] ∧
    [ra, ca].eraseIdx (1 - tl.toNat) = [if tl then ca else ra] ∧
    [ra, ca].getD (1 - tl.toNat) 0 = [B, ra, ca].getD (2 - tl.toNat) 0 ∧
    [B, ra, ca].getD (2 - tl.toNat) 0 = (if tl then ra else ca) := by
  cases tl <;> simp [List.eraseIdx]

/-- The contracted axis of the right view, the free dimensions it leaves, and
the same for a chip. -/
theorem rhs_axis_facts (tr : Bool) (B rb cb : Nat) :
    (if tr then 2 else 1) = 1 + tr.toNat ∧
    [B, rb, cb].eraseIdx (1 + tr.toNat) = [B, if tr then rb else cb] ∧
    [rb, cb].eraseIdx (0 + tr.toNat) = [if tr then rb else cb] ∧
    [B, rb, cb].getD (1 + tr.toNat) 0 = (if tr then cb else rb) := by
  cases tr <;> simp [List.eraseIdx]

/-- A coefficient of a left chip, addressed through the contracted axis. -/
theorem chip_coeff_lhs (tl : Bool) (B ra ca : Nat) (a : List Nat) (i x t : Nat)
    (hx : x < (if tl then ca else ra)) (ht : t < (if tl then ra else ca)) :
    coeff [ra, ca] (chip0 [B, ra, ca] a i) (insertAt [x] (1 - tl.toNat) t) =
      coeff [B, ra, ca] a (insertAt [i, x] (2 - tl.toNat) t) := by
  cases tl
  · simp only [Bool.false_eq_true, if_false] at hx ht
    exact coeff_chip0 B ra ca a i x t hx ht
  · simp only [if_true] at hx ht
    exact coeff_chip0 B ra ca a i t x ht hx

/-- A coefficient of a right chip, addressed through the contracted axis. -/
theorem chip_coeff_rhs (tr : Bool) (B rb cb : Nat) (b : List Nat) (i y t : Nat)
    (hy : y < (if tr then rb else cb)) (ht : t < (if tr then cb else rb)) :
    coeff [rb, cb] (chip0 [B, rb, cb] b i) (insertAt [y] (0 + tr.toNat) t) =
      coeff [B, rb, cb] b (insertAt [i, y] (1 + tr.toNat) t) := by
  cases tr
  · simp only [Bool.false_eq_true, if_false] at hy ht
    exact coeff_chip0 B rb cb b i t y ht hy
  · simp only [if_true] at hy ht
    exact coeff_chip0 B rb cb b i y t hy ht

/-- C18, as amended: with both operands viewed as rank 3 `[batch, rows, cols]`,
`mat_mul` checks and contracts lhs axis 2 (axis 1 if `trans_lhs`) against rhs
axis 1 (axis 2 if `trans_rhs`): an accepted call has equal sizes along these two
axes, and (into a destination of the product's row and column counts) entry
`(i, x, y)` of the result is the sum over `t` of the products of the lhs
coefficient with `t` at its axis and the rhs coefficient with `t` at its axis,
the rhs batch index being 0 when the rhs batch size is 1. -/
theorem mat_mul_contracted_axes (T : IntType) (a b dst r : PaddleTensor) (tl tr : Bool)
    (B M N : Nat) (h : mat_mul T a b dst tl tr = Except.ok r)
    (hB : batchOf a.tensor = B)
    (hM : (if tl then colsOf a.tensor else rowsOf a.tensor) = M)
    (hN : (if tr then rowsOf b.tensor else colsOf b.tensor) = N)
    (hrows : rowsOf dst.tensor = M) (hcols : colsOf dst.tensor = N)
    (hlen : dst.tensor.data.length = B * M * N) :
    (view3 a.tensor).getD (if tl then 1 else 2) 0 =
      (view3 b.tensor).getD (if tr then 2 else 1) 0 ∧
    ∀ i x y, i < B → x < M → y < N →
      r.tensor.data[(i * M + x) * N + y]? =
        some ((((List.range ((view3 a.tensor).getD (if tl then 1 else 2) 0)).map fun t =>
          coeff (view3 a.tensor) a.tensor.data (insertAt [i, x] (if tl then 1 else 2) t) *
            coeff (view3 b.tensor) b.tensor.data
              (insertAt [if batchOf b.tensor = 1 then 0 else i, y] (if tr then 2 else 1) t)).sum)
          % 2 ^ T.bits) := by
  obtain ⟨_, _, _, hc, hb, _, hdata⟩ := mat_mul_ok_inv T a b dst r tl tr h
  subst hB hM hN
  obtain ⟨la1, la2, la3, la4, la5⟩ :=
    lhs_axis_facts tl (batchOf a.tensor) (rowsOf a.tensor) (colsOf a.tensor)
  obtain ⟨rb1, rb2, rb3, rb4⟩ :=
    rhs_axis_facts tr (batchOf b.tensor) (rowsOf b.tensor) (colsOf b.tensor)
  unfold view3
  rw [la1, rb1]
  have hK : [batchOf a.tensor, rowsOf a.tensor, colsOf a.tensor].getD (2 - tl.toNat) 0 =
      [batchOf b.tensor, rowsOf b.tensor, colsOf b.tensor].getD (1 + tr.toNat) 0 := by
    rw [la5, rb4]; exact hc
  refine ⟨hK, ?_⟩
  intro i x y hi hx hy
  rw [hdata]
  by_cases h1 : batchOf b.tensor = 1
  · rw [if_pos h1, if_pos h1]
    have hfb : [batchOf b.tensor, rowsOf b.tensor, colsOf b.tensor].eraseIdx (1 + tr.toNat) =
        [1, if tr then rowsOf b.tensor else colsOf b.tensor] := by rw [rb2, h1]
    have hl : (contract T [batchOf a.tensor, rowsOf a.tensor, colsOf a.tensor] a.tensor.data
        [batchOf b.tensor, rowsOf b.tensor, colsOf b.tensor] b.tensor.data
        (2 - tl.toNat) (1 + tr.toNat)).length = dst.tensor.data.length := by
      rw [contract_length, la2, hfb, hlen]
      simp only [List.prod_cons, List.prod_nil, Nat.mul_one, Nat.one_mul]
    rw [storeAt_zero_full _ _ hl]
    exact contract_getElem_shared T _ _ _ _ _ _ _ _ _ la2 hfb i x y hi hx hy
  · rw [if_neg h1, if_neg h1, hrows, hcols]
    have hidx : (i * (if tl then colsOf a.tensor else rowsOf a.tensor) + x) *
        (if tr then rowsOf b.tensor else colsOf b.tensor) + y =
        i * ((if tl then colsOf a.tensor else rowsOf a.tensor) *
          (if tr then rowsOf b.tensor else colsOf b.tensor)) +
        (x * (if tr then rowsOf b.tensor else colsOf b.tensor) + y) := by ring
    have hstep : (fun (buf : List Nat) (i : Nat) => storeAt buf
          (i * (if tl then colsOf a.tensor else rowsOf a.tensor) *
            (if tr then rowsOf b.tensor else colsOf b.tensor))
          (contract T [rowsOf a.tensor, colsOf a.tensor]
            (chip0 [batchOf a.tensor, rowsOf a.tensor, colsOf a.tensor] a.tensor.data i)
            [rowsOf b.tensor, colsOf b.tensor]
            (chip0 [batchOf b.tensor, rowsOf b.tensor, colsOf b.tensor] b.tensor.data i)
            (1 - tl.toNat) (0 + tr.toNat))) =
        (fun (buf : List Nat) (i : Nat) => storeAt buf
          (i * ((if tl then colsOf a.tensor else rowsOf a.tensor) *
            (if tr then rowsOf b.tensor else colsOf b.tensor)))
          ((fun j => contract T [rowsOf a.tensor, colsOf a.tensor]
            (chip0 [batchOf a.tensor, rowsOf a.tensor, colsOf a.tensor] a.tensor.data j)
            [rowsOf b.tensor, colsOf b.tensor]
            (chip0 [batchOf b.tensor, rowsOf b.tensor, colsOf b.tensor] b.tensor.data j)
            (1 - tl.toNat) (0 + tr.toNat)) i)) := by
      funext buf i
      rw [Nat.mul_assoc]
    rw [hstep, hidx]
    rw [foldl_storeAt_blocks _ _
      (fun j => by rw [contract_length, la3, rb3]; simp)
      dst.tensor.data _ (by rw [hlen, Nat.mul_assoc]) i _ hi (lin_lt _ _ x y hx hy)]
    rw [contract_getElem_each T _ _ _ _ _ _ _ _ la3 rb3 x y hx hy, la4]
    congr 3
    apply List.map_congr_left
    intro t ht
    rw [List.mem_range, la5] at ht
    have ht2 : t < (if tr then colsOf b.tensor else rowsOf b.tensor) := by
      rw [← rb4, ← hK, la5]; exact ht
    rw [chip_coeff_lhs tl _ _ _ _ i x t hx ht, chip_coeff_rhs tr _ _ _ _ i y t hy ht2]

/-- The amended claim C18 on a `[2, 3]` lhs and a `[4, 3]` rhs with `trans_rhs` set. -/
theorem mat_mul_contracted_axes_witness :
    (view3 exA.tensor).getD (if false then 1 else 2) 0 =
      (view3 exBt.tensor).getD (if true then 2 else 1) 0 ∧
    ∀ i x y, i < 1 → x < 2 → y < 4 →
      (mkTensor [2, 4] [10, 2, 5, 6, 22, 5, 14, 15]).tensor.data[(i * 2 + x) * 4 + y]? =
        some ((((List.range ((view3 exA.tensor).getD (if false then 1 else 2) 0)).map fun t =>
          coeff (view3 exA.tensor) exA.tensor.data (insertAt [i, x] (if false then 1 else 2) t) *
            coeff (view3 exBt.tensor) exBt.tensor.data
              (insertAt [if batchOf exBt.tensor = 1 then 0 else i, y]
                (if true then 2 else 1) t)).sum)
          % 2 ^ int64.bits) :=
  mat_mul_contracted_axes int64 exA exBt exDst (mkTensor [2, 4] [10, 2, 5, 6, 22, 5, 14, 15])
    false true 1 2 4 rfl rfl rfl rfl rfl rfl rfl

/-- C18 as stated fails for `trans_rhs`: the call on a `[2, 3]` lhs and a
`[4, 3]` rhs with `trans_rhs` set is accepted although lhs axis 2 has size 3 and
rhs axis 0 (the batch axis) has size 1; the sizes compared, and summed over,
are those of lhs axis 2 and rhs axis 2.  A `[2, 1]` lhs, whose axis 2 has the
size of rhs axis 0, is refused. -/
theorem mat_mul_rhs_axis_counterexample :
    (view3 exA.tensor).getD 2 0 = 3 ∧ (view3 exBt.tensor).getD 0 0 = 1 ∧
    (view3 exBt.tensor).getD 2 0 = 3 ∧
    mat_mul int64 exA exBt exDst false true =
      Except.ok (mkTensor [2, 4] [10, 2, 5, 6, 22, 5, 14, 15]) ∧
    (view3 (mkTensor [2, 1] [1, 2]).tensor).getD 2 0 = (view3 exBt.tensor).getD 0 0 ∧
    mat_mul int64 (mkTensor [2, 1] [1, 2]) exBt exDst false true =
      Except.error Abort.contractedDimMismatch := by
  refine ⟨by decide, by decide, by decide, ?_, by decide, ?_⟩
  · rfl
  · rfl

/-! ## The destination's rows and columns -/

/-- The slice of the `[2, 3] x [3, 4]` product and what the `[3, 3]` destination
holds after the call: the 8 entries of the product, then its old last word. -/
theorem mat_mul_dst_rows_cols_example :
    productSlice int64 exA.tensor exB.tensor false false 0 0 = [10, 2, 5, 6, 22, 5, 14, 15] ∧
    (mat_mul int64 exA exB exNine false false).map (fun r => r.tensor.data) =
      Except.ok ([10, 2, 5, 6, 22, 5, 14, 15] ++ [7]) := by
  refine ⟨by decide, ?_⟩
  rfl

/-- A batch of two `1 x 2` by `2 x 1` products into a `[2, 2, 2]` destination:
each product has one entry, and it is stored at the start of the `2 x 2` slice of
the destination, offsets 0 and 4. -/
theorem mat_mul_dst_batched_example :
    StoresInBounds exPairA.tensor exPairB.tensor exPairDst.tensor false false ∧
    productSlice int64 exPairA.tensor exPairB.tensor false false 0 0 = [17] ∧
    productSlice int64 exPairA.tensor exPairB.tensor false false 1 1 = [53] ∧
    mat_mul int64 exPairA exPairB exPairDst false false =
      Except.ok (mkTensor [2, 2, 2] [17, 9, 9, 9, 53, 9, 9, 9]) := by
  refine ⟨by unfold StoresInBounds; decide, by decide, by decide, ?_⟩
  rfl

end aby3
